import Mathlib

/-!
Verification development for the COFFEE CSE-unpicking engine and expression
rewriter (files src/coffee/cse.py and src/coffee/rewriter.py).

The Python classes are shallowly embedded below.  Python lists and ordered
dictionaries become Lean lists and association lists with update-in-place
semantics; Python arbitrary-precision integers become Int (or Nat where the
source can only produce non-negative values).  Components of the repository
that live outside the two source files (the AST base classes, the visitor
utilities, the loop and reachability analyses, the arithmetic-operation
estimator) are modelled from the specification; every such definition carries
a doc comment naming what is missing.
-/

namespace Coffee

/-- A symbol occurrence: name plus rank (index tuple).  Mirrors the data of
base.Symbol that cse.py and rewriter.py consume; urepr is the pair of both. -/
structure Sym where
  symbol : String
  rank : List String
deriving DecidableEq, Repr

/-- The urepr of a symbol, used as dictionary key throughout cse.py. -/
abbrev Urepr := String × List String

/-- Computes the urepr key of a symbol. -/
def Sym.urepr (s : Sym) : Urepr := (s.symbol, s.rank)

/-- Expression trees, the fragment of the COFFEE AST that the analyzed code
inspects: symbols, constant array initializers, products, divisions, sums and
subtractions.  Numeric literals are symbols whose name is a digit string,
exactly as in COFFEE (compare rewriter.replacediv, which tests
symbol.isdigit()). -/
inductive Expr where
  | sym (s : Sym)
  | arrInit (vals : List Int)
  | prodE (a b : Expr)
  | divE (a b : Expr)
  | sumE (a b : Expr)
  | subE (a b : Expr)
deriving DecidableEq, Repr

/-- Modelled from the spec: the visitor FindInstances(Symbol) of cse.py line
244 lives in coffee/visitors.py, outside src/.  Per the spec it is a
structural find; it returns all symbol occurrences in preorder. -/
def symsIn : Expr → List Sym
  | .sym s => [s]
  | .arrInit _ => []
  | .prodE a b => symsIn a ++ symsIn b
  | .divE a b => symsIn a ++ symsIn b
  | .sumE a b => symsIn a ++ symsIn b
  | .subE a b => symsIn a ++ symsIn b

/-- Modelled from the spec: EstimateFlops (coffee/visitors.py, outside src/)
is the static arithmetic-operation-count estimator over an expression tree
named in section 6 of the spec; it counts the arithmetic operator nodes. -/
def estimateFlops : Expr → Nat
  | .sym _ => 0
  | .arrInit _ => 0
  | .prodE a b => estimateFlops a + estimateFlops b + 1
  | .divE a b => estimateFlops a + estimateFlops b + 1
  | .sumE a b => estimateFlops a + estimateFlops b + 1
  | .subE a b => estimateFlops a + estimateFlops b + 1

/-- Operator-class tags used to reproduce the chain-flattening traversal of
the wrapper in CSEUnpicker._analyze_expr (cse.py lines 251 to 264). -/
inductive EKind where
  | kProd
  | kDiv
  | kOther
deriving DecidableEq, Repr

/-- Bumps the accumulated multiplicative-depth cost of a symbol, mirroring
linear_reads_costs.setdefault(node, 0) followed by += found (cse.py lines
254 to 255).  Keys are compared by value; base.py (outside src/) owns the
hashing discipline of Symbol, and the spec describes linear_reads_costs as a
map from each linearly-dependent read symbol to an accumulated cost. -/
def lrcBump (acc : List (Sym × Nat)) (s : Sym) (found : Nat) : List (Sym × Nat) :=
  if acc.any (fun p => p.1 = s) then
    acc.map (fun p => if p.1 = s then (p.1, p.2 + found) else p)
  else
    acc ++ [(s, found)]

/-- The wrapper of CSEUnpicker._analyze_expr (cse.py lines 251 to 264): walks
the expression, counting enclosing Prod and Div operators; a chain of nested
operators of the same class counts once, because the wrapper recurses through
explore_operator (utils.py, outside src/; modelled from its use in
ExpressionRewriter.reassociate as returning the operand list of the maximal
chain of one operator class).  The parent-kind argument records whether the
current node sits inside a chain of the same class. -/
def wrapGo (syms : List Sym) : EKind → Nat → Expr → List (Sym × Nat) → List (Sym × Nat)
  | _, found, .sym s, acc => if s ∈ syms then lrcBump acc s found else acc
  | _, _, .arrInit _, acc => acc
  | pk, found, .prodE a b, acc =>
      let f := if pk = .kProd then found else found + 1
      wrapGo syms .kProd f b (wrapGo syms .kProd f a acc)
  | pk, found, .divE a b, acc =>
      let f := if pk = .kDiv then found else found + 1
      wrapGo syms .kDiv f b (wrapGo syms .kDiv f a acc)
  | _, found, .sumE a b, acc =>
      wrapGo syms .kOther found b (wrapGo syms .kOther found a acc)
  | _, found, .subE a b, acc =>
      wrapGo syms .kOther found b (wrapGo syms .kOther found a acc)

/-- CSEUnpicker._analyze_expr (cse.py lines 243 to 266): returns the read
symbols that are declared, and the linear reads with their accumulated
multiplicative-depth costs.  lda is the loop-dependence analysis map
(symbol name to the loop dimensions it varies over). -/
def analyzeExpr (decls : List String) (linearDims : List String)
    (lda : String → List String) (e : Expr) : List Sym × List (Sym × Nat) :=
  let reads := (symsIn e).filter (fun s => decls.contains s.symbol)
  let syms := reads.filter (fun s => (lda s.symbol).any (fun l => linearDims.contains l))
  (reads, wrapGo syms .kOther 0 e [])

/-- A for loop of the kernel AST: iteration dimension, trip count, linearity
flag, and the identity of its body block (base.For exposes the body as
children[0]; blockId stands for that block object, and is unique per loop). -/
structure Loop where
  dim : String
  size : Nat
  is_linear : Bool
  blockId : Nat
deriving DecidableEq, Repr

/-- Statements of a loop body: writer statements (Assign; the statement id
stands for the identity of the Python AST node, unique per statement) and
nested for loops.  These are the node kinds CSEUnpicker._analyze_loop
dispatches on (Writer versus everything else). -/
inductive BNode where
  | writer (nid : Nat) (lvalue : Sym) (rvalue : Expr)
  | forL (loop : Loop) (body : List BNode)

/-- Modelled from the spec: base.py (outside src/) does not override node
equality, so the membership and removal operations of cse.py compare AST
nodes by object identity.  Identity is modelled by a node id, unique per
node of a kernel: the statement id of a writer, the block id of a loop. -/
def BNode.nid : BNode → Nat
  | .writer i _ _ => i
  | .forL l _ => l.blockId

/-- The node a Temporary points at: the defining writer statement, or a bare
symbol reference for symbols that are only read (cse.py line 286). -/
inductive TNode where
  | stmt (b : BNode)
  | symN (s : Sym)

/-- An operand of linear_reads_costs.  Keys start as Symbol objects; inside
CSEUnpicker._cost_fact the updated copies are re-keyed by raw urepr tuples
(cse.py line 361), and line 349 normalizes both shapes. -/
inductive LinOp where
  | s (x : Sym)
  | u (x : Urepr)
deriving DecidableEq, Repr

/-- The urepr of a linear operand: Symbol keys expose .urepr, raw tuples are
already ureprs (cse.py line 349). -/
def LinOp.urepr : LinOp → Urepr
  | .s x => x.urepr
  | .u x => x

/-- The Temporary record of cse.py lines 44 to 130.  Lists are held by value;
the snapshot independence that justifies this for reconstructed copies is
proved separately on a store model (see the reconstruct theorems below). -/
structure Temporary where
  node : TNode
  main_loop : Loop
  nest : List Loop
  reads : List Sym
  lrc : List (LinOp × Nat)
  level : Int
  pushed : Bool
  readby : List Sym
  flops : Nat

namespace Temporary

/-- Temporary.symbol (cse.py lines 70 to 77): the lvalue of the defining
writer, or the bare symbol itself. -/
def symbol (t : Temporary) : Sym :=
  match t.node with
  | .stmt (.writer _ lv _) => lv
  | .stmt (.forL l _) => ⟨l.dim, []⟩
  | .symN s => s

/-- Temporary.expr (cse.py lines 79 to 84): the rvalue of the defining writer
statement, if any. -/
def expr (t : Temporary) : Option Expr :=
  match t.node with
  | .stmt (.writer _ _ rv) => some rv
  | _ => none

/-- Temporary.urepr (cse.py lines 86 to 88). -/
def urepr (t : Temporary) : Urepr := t.symbol.urepr

/-- Temporary.linear_reads (cse.py lines 90 to 92): the keys of
linear_reads_costs. -/
def linear_reads (t : Temporary) : List LinOp := t.lrc.map (·.1)

/-- Temporary.niters (cse.py lines 98 to 100): the product of the loop sizes
of the whole nest. -/
def niters (t : Temporary) : Nat := (t.nest.map (·.size)).foldl (· * ·) 1

/-- Temporary.niters_after_licm (cse.py lines 102 to 105): the product of the
loop sizes of the nest without the main loop. -/
def niters_after_licm (t : Temporary) : Nat :=
  ((t.nest.filter (fun l => l ≠ t.main_loop)).map (·.size)).foldl (· * ·) 1

/-- Temporary.project (cse.py lines 107 to 109): the number of linear reads. -/
def project (t : Temporary) : Nat := t.linear_reads.length

/-- Temporary.is_ssa (cse.py lines 111 to 113): the own symbol does not occur
among the readers. -/
def is_ssa (t : Temporary) : Bool := ¬ t.readby.contains t.symbol

/-- Temporary.is_static_init (cse.py lines 115 to 117): the rvalue is a
constant array initializer. -/
def is_static_init (t : Temporary) : Bool :=
  match t.expr with
  | some (.arrInit _) => true
  | _ => false

/-- Temporary.reconstruct (cse.py lines 119 to 124) as a value copy: the
constructor resets pushed to False, and reconstruct restores level and
readby; all other fields are carried over. -/
def reconstruct (t : Temporary) : Temporary := { t with pushed := false }

end Temporary

/-- The ordered map from ureprs to Temporaries used for both the per-loop
trace and the global trace (Python OrderedDict). -/
abbrev Trace := List (Urepr × Temporary)

/-- Dictionary lookup in a trace. -/
def getT (tr : Trace) (u : Urepr) : Option Temporary :=
  (tr.find? (fun p => p.1 = u)).map (·.2)

/-- Dictionary update: overwrites the entry in place if the key is present
(keeping its position, as OrderedDict does), else appends it. -/
def setT (tr : Trace) (u : Urepr) (t : Temporary) : Trace :=
  if tr.any (fun p => p.1 = u) then
    tr.map (fun p => if p.1 = u then (u, t) else p)
  else
    tr ++ [(u, t)]

/-- dict.update: writes every entry of the second trace into the first
(cse.py line 412). -/
def updTrace (gt : Trace) (tr : Trace) : Trace :=
  tr.foldl (fun g p => setT g p.1 p.2) gt

/-- Modelled from the spec: in_written (utils.py, outside src/) returns the
symbols written inside a node, as its name and its use for the not_ssa list
of cse.py line 273 indicate (a temporary written again elsewhere stops being
SSA).  A writer writes its lvalue; a loop writes whatever its body writes.
The fuel bounds the loop-nesting depth and is inert beyond it. -/
def inWritten (fuel : Nat) : BNode → List Urepr
  | .writer _ lv _ => [lv.urepr]
  | .forL _ body =>
      match fuel with
      | 0 => []
      | f + 1 => body.foldl (fun acc b => acc ++ inWritten f b) []

/-- The symbols a statement reads (rvalue symbol occurrences), used to state
the spec sentence about non-write statements; the analyzed code itself never
consumes this for non-writers. -/
def readsOf (fuel : Nat) : BNode → List Sym
  | .writer _ _ rv => symsIn rv
  | .forL _ body =>
      match fuel with
      | 0 => []
      | f + 1 => body.foldl (fun acc b => acc ++ readsOf f b) []

/-- A fresh Temporary as built by Temporary.__init__ (cse.py lines 50 to 60)
for a bare symbol read: level -1, not pushed, no readers, no reads, and a
zero flop estimate. -/
def mkSymTemporary (s : Sym) (loop : Loop) (nest : List Loop) : Temporary :=
  { node := .symN s, main_loop := loop, nest := nest, reads := [], lrc := [],
    level := -1, pushed := false, readby := [], flops := 0 }

/-- Python max over a possibly-defaulted list: max(xs or [d]) (cse.py lines
289 to 290). -/
def pyMaxOr (xs : List Int) (d : Int) : Int :=
  match xs with
  | [] => d
  | y :: ys => ys.foldl max y

/-- One linear read of the writer branch of CSEUnpicker._analyze_loop
(cse.py lines 278 to 287): either fork the globally known Temporary (append
the current lvalue to its readers, then install an independent level-reset
copy in the local trace), or create/extend a local entry and append the
current lvalue to its readers. -/
def traceReadStep (loop : Loop) (nest : List Loop) (lvalue : Sym)
    (tg : Trace × Trace) (sc : Sym × Nat) : Trace × Trace :=
  let s := sc.1
  match getT tg.2 s.urepr with
  | some temporary =>
      let temporary := { temporary with readby := temporary.readby ++ [lvalue] }
      let gt := setT tg.2 s.urepr temporary
      let temp2 := { temporary.reconstruct with level := -1 }
      (setT tg.1 s.urepr temp2, gt)
  | none =>
      let temporary := (getT tg.1 s.urepr).getD (mkSymTemporary s loop nest)
      let temporary := { temporary with readby := temporary.readby ++ [lvalue] }
      (setT tg.1 s.urepr temporary, tg.2)

/-- The read-tracing phase of the writer branch: one traceReadStep per
linear read, in order. -/
def traceReadsPhase (loop : Loop) (nest : List Loop) (lvalue : Sym)
    (st : Trace × Trace) (lrcs : List (Sym × Nat)) : Trace × Trace :=
  lrcs.foldl (traceReadStep loop nest lvalue) st

/-- The Temporary built for a write target (cse.py lines 288 to 291): the
whole-statement node, the analyzed reads and linear read costs, and level
one more than the maximum level of the linear reads in the local trace, with
max([] or [-2]) + 1 = -1 when there are none.  The dictionary accesses
trace[s.urepr] always succeed because the read-tracing phase installed every
key; filterMap models them (the presence lemma below discharges the missing
case). -/
def mkWriteTemporary (loop : Loop) (nest : List Loop) (n : BNode)
    (rvalue : Expr) (reads : List Sym) (lrcs : List (Sym × Nat))
    (tr1 : Trace) : Temporary :=
  let lrcL : List (LinOp × Nat) := lrcs.map (fun sc => (LinOp.s sc.1, sc.2))
  let lvls := lrcL.filterMap (fun p => (getT tr1 p.1.urepr).map (·.level))
  { node := .stmt n, main_loop := loop, nest := nest, reads := reads, lrc := lrcL,
    level := pyMaxOr lvls (-2) + 1, pushed := false, readby := [],
    flops := estimateFlops rvalue }

/-- One iteration of the statement loop of CSEUnpicker._analyze_loop (cse.py
lines 271 to 291): non-writer statements append the own symbol to the
readers of every still-open Temporary they write (making it non-SSA); writer
statements run the read-tracing phase and then install the new Temporary for
the write target. -/
def analyzeStep (fuel : Nat) (decls : List String) (linearDims : List String)
    (lda : String → List String) (loop : Loop) (nest : List Loop)
    (st : Trace × Trace) (n : BNode) : Trace × Trace :=
  match n with
  | .forL _ _ =>
      ((inWritten fuel n).foldl (fun tr w =>
        match getT tr w with
        | some t => setT tr w { t with readby := t.readby ++ [t.symbol] }
        | none => tr) st.1, st.2)
  | .writer _ lvalue rvalue =>
      let a := analyzeExpr decls linearDims lda rvalue
      let (tr1, gt1) := traceReadsPhase loop nest lvalue st a.2
      (setT tr1 lvalue.urepr (mkWriteTemporary loop nest n rvalue a.1 a.2 tr1), gt1)

/-- CSEUnpicker._analyze_loop (cse.py lines 268 to 293): folds the statement
analysis over the loop body, starting from an empty local trace; returns the
local trace together with the (mutated) global trace. -/
def analyzeLoop (fuel : Nat) (decls : List String) (linearDims : List String)
    (lda : String → List String) (loop : Loop) (nest : List Loop)
    (gt : Trace) (body : List BNode) : Trace × Trace :=
  body.foldl (analyzeStep fuel decls linearDims lda loop nest) ([], gt)

/-- CSEUnpicker._group_by_level (cse.py lines 295 to 300) as the total map
from a level to the Temporaries of the trace at that level, in trace order
(the defaultdict returns the empty list outside the support). -/
def groupByLevel (ts : List Temporary) : Int → List Temporary :=
  fun l => ts.filter (fun t => t.level = l)

/-- The integer interval [lo, hi) as a list, mirroring Python range. -/
def intRange (lo hi : Int) : List Int :=
  (List.range (hi - lo).toNat).map (fun (k : Nat) => lo + (k : Int))

/-- CSEUnpicker._cost_cse (cse.py lines 302 to 309) in its bounded form (the
analyzed code always passes bounds): the flops-times-iterations cost of the
Temporaries at every level of the inclusive range. -/
def costCse (levels : Int → List Temporary) (bounds : Int × Int) : Nat :=
  ((intRange bounds.1 (bounds.2 + 1)).map (fun l =>
    ((levels l).map (fun t => t.flops * t.niters)).sum)).sum

/-- sys.maxint of the Python 2 runtime, the initial best cost of
CSEUnpicker._cost_fact (cse.py line 327). -/
def maxint : Int := 9223372036854775807

/-- Updates the Temporary stored under a key, leaving the trace unchanged if
the key is absent (the analyzed accesses always hit). -/
def updateT (tr : Trace) (u : Urepr) (f : Temporary → Temporary) : Trace :=
  tr.map (fun p => if p.1 = u then (p.1, f p.2) else p)

/-- Inserts an integer into a sorted list, keeping it sorted. -/
def insSorted (x : Int) : List Int → List Int
  | [] => [x]
  | y :: ys => if x ≤ y then x :: y :: ys else y :: insSorted x ys

/-- Sorts a list of integers ascendingly (Python sorted over dict keys). -/
def sortInts (l : List Int) : List Int :=
  l.foldl (fun acc x => insSorted x acc) []

/-- The operand-tracing fold of CSEUnpicker._cost_fact (cse.py lines 338 to
345): every linear read that is known in the hypothetical trace contributes
its already-decided linear operands (or its own urepr when it has none) and
its projection times the read cost; unknown reads contribute their own
urepr. -/
def costFactReads (nt : Trace) (lrc : List (LinOp × Nat)) : List LinOp × Nat :=
  lrc.foldl (fun acc rc =>
    match getT nt rc.1.urepr with
    | some tt =>
        (acc.1 ++ (if tt.linear_reads.isEmpty then [LinOp.u rc.1.urepr]
                   else tt.linear_reads),
         acc.2 + tt.project * rc.2)
    | none => (acc.1 ++ [LinOp.u rc.1.urepr], acc.2)) ([], 0)

/-- The deduplicated operand set of cse.py line 349: Symbols are normalized
to their urepr, raw ureprs are kept, and duplicates are removed (a Python
set; only cardinality and membership of the result are consumed). -/
def factSyms (l : List LinOp) : List Urepr := (l.map LinOp.urepr).dedup

/-- The per-Temporary body of the level loop of CSEUnpicker._cost_fact
(cse.py lines 331 to 361), threading (hypothetical trace, outer-loop total,
inner-loop total): trace the linear reads, deduplicate, add the outer-loop
cost (projection costs plus killed duplicates) scaled by the post-hoist
iteration count and the inner-loop cost (2 n - 1) scaled by the full
iteration count, and store the deduplicated operands as the new
linear_reads_costs of the hypothetical entry. -/
def costFactTempStep (s : Trace × Nat × Int) (t : Temporary) : Trace × Nat × Int :=
  let pr := costFactReads s.1 t.lrc
  let fs := factSyms pr.1
  let tOut := pr.2 + (pr.1.length - fs.length)
  let tIn : Int := 2 * (fs.length : Int) - 1
  let nt2 := updateT s.1 t.urepr
    (fun x => { x with lrc := fs.map (fun u => (LinOp.u u, 1)) })
  (nt2, s.2.1 + tOut * t.niters_after_licm, s.2.2 + tIn * (t.niters : Int))

/-- CSEUnpicker._cost_fact (cse.py lines 311 to 389): for every candidate
cut level in (bounds.1, bounds.2], estimate the total cost of factorizing
and hoisting everything up to that level, and return the first-seen minimum
(lower bound, best level, best cost).  The hypothetical trace starts as a
reconstructed copy of the loop trace and is rewritten level by level.  The
final cost_cse call on the restricted fact_levels dictionary coincides with
cost_cse on the full grouping because its range lies inside the restriction. -/
def costFact (trace : Trace) (bounds : Int × Int) : Int × Int × Int :=
  let vals := trace.map (·.2)
  let lvls := sortInts (vals.map (·.level)).dedup
  let lv := groupByLevel vals
  let minL := lvls.head?.getD 0
  let cseCost := costCse lv (minL, bounds.1)
  let nt0 : Trace := trace.foldl (fun nt p => setT nt p.1 p.2.reconstruct) []
  let factKeys := lvls.filter (fun k => bounds.1 < k && k ≤ bounds.2)
  let res := factKeys.foldl (fun acc level =>
    let step := (lv level).foldl costFactTempStep (acc.1, acc.2.1, (0 : Int))
    let nt' := step.1
    let tot' := step.2.1
    let lvlIn := ((intRange 0 level).map lv).flatten.foldl (fun li t =>
        if t.readby.any (fun rb => (getT nt' rb.urepr).isNone) ||
           t.readby.any (fun rb => match getT nt' rb.urepr with
             | some x => x.level > level
             | none => false) then
          li + (t.flops * t.niters : Int)
        else li) step.2.2
    let upto := (cseCost : Int) + (tot' : Int) + lvlIn +
      (costCse lv (level + 1, bounds.2) : Int)
    let best' := if upto < acc.2.2.2.2 then (bounds.1, level, upto) else acc.2.2
    (nt', tot', best'))
    (nt0, (0 : Nat), ((bounds.1, bounds.1, maxint) : Int × Int × Int))
  res.2.2

/-- The loop bodies in which the readers of a Temporary live: every reader
known to the global trace contributes the body block of its main loop
(cse.py lines 172 to 173; children[0] is modelled by the block id). -/
def pushedIn (gt : Trace) (t : Temporary) : List Nat :=
  ((t.readby.filterMap (fun rb => getT gt rb.urepr)).map
    (fun g => g.main_loop.blockId)).dedup

/-- The is_pushable predicate of CSEUnpicker._push_temporaries (cse.py lines
160 to 181).  The reachability analysis (outside src/) composed with the
declaration table is passed as the map ra from a symbol name to the loop
bodies where its declaration is visible. -/
def isPushable (gt : Trace) (ra : String → List Nat) (t : Temporary) : Bool :=
  if ¬ t.is_ssa then false
  else if t.readby.isEmpty then false
  else if t.is_static_init then false
  else t.reads.all (fun s =>
    if (match getT gt s.urepr with | some g => g.pushed | none => false) then true
    else (pushedIn gt t).all (fun l => (ra s.symbol).contains l))

/-- Modelled from the spec: ast_replace (utils.py, outside src/) is the
structural substitute with deep copy on replace named in section 6 of the
spec.  Symbol occurrences matching a key of the substitution map are
replaced by the associated expression. -/
def substExpr (m : List (Urepr × Expr)) : Expr → Expr
  | .sym s =>
      match m.find? (fun p => p.1 = s.urepr) with
      | some p => p.2
      | none => .sym s
  | .arrInit v => .arrInit v
  | .prodE a b => .prodE (substExpr m a) (substExpr m b)
  | .divE a b => .divE (substExpr m a) (substExpr m b)
  | .sumE a b => .sumE (substExpr m a) (substExpr m b)
  | .subE a b => .subE (substExpr m a) (substExpr m b)

/-- ast_replace applied to a defining statement: the rvalue is rewritten in
place (modified temporaries are always writer statements). -/
def astReplaceNode (m : List (Urepr × Expr)) : BNode → BNode
  | .writer i lv rv => .writer i lv (substExpr m rv)
  | .forL l body => .forL l body

/-- Finds the body of the loop with the given block id inside a tree. -/
def findLoopBody (fuel : Nat) (bid : Nat) (ns : List BNode) : Option (List BNode) :=
  match fuel with
  | 0 => none
  | f + 1 =>
      ns.foldl (fun acc b =>
        match acc with
        | some r => some r
        | none =>
            match b with
            | .forL l body => if l.blockId = bid then some body else findLoopBody f bid body
            | _ => none) none

/-- Applies a body transformation to the loop with the given block id,
modelling in-place mutation of that loop node. -/
def mapLoopBody (fuel : Nat) (bid : Nat) (f : List BNode → List BNode)
    (ns : List BNode) : List BNode :=
  match fuel with
  | 0 => ns
  | fu + 1 =>
      ns.map (fun b =>
        match b with
        | .forL l body =>
            if l.blockId = bid then .forL l (f body)
            else .forL l (mapLoopBody fu bid f body)
        | w => w)

/-- list.remove by node identity: drops the first body element with the
given node id (cse.py line 196). -/
def eraseByNid (i : Nat) : List BNode → List BNode
  | [] => []
  | x :: xs => if x.nid = i then xs else x :: eraseByNid i xs

/-- Membership of a Temporary node in a loop body, by node identity (cse.py
line 194); bare-symbol nodes are never body elements. -/
def nodeInBody (body : List BNode) : TNode → Bool
  | .stmt b => body.any (fun x => x.nid = b.nid)
  | .symN _ => false

/-- Replaces, anywhere in the tree, the node with the given identity by a new
node, modelling in-place mutation of that statement object. -/
def replaceByNid (fuel : Nat) (i : Nat) (new : BNode) (ns : List BNode) : List BNode :=
  match fuel with
  | 0 => ns
  | fu + 1 =>
      ns.map (fun b =>
        if b.nid = i then new
        else
          match b with
          | .forL l body => .forL l (replaceByNid fu i new body)
          | w => w)

/-- Removes the first linear_reads_costs entry with the given key
(dict.pop, cse.py line 211). -/
def eraseLrc (k : LinOp) : List (LinOp × Nat) → List (LinOp × Nat)
  | [] => []
  | p :: ps => if p.1 = k then ps else p :: eraseLrc k ps

/-- Sets a linear_reads_costs entry (dict assignment, cse.py line 214):
overwrite in place if present, append otherwise. -/
def setLrc (l : List (LinOp × Nat)) (k : LinOp) (v : Nat) : List (LinOp × Nat) :=
  if l.any (fun p => p.1 = k) then
    l.map (fun p => if p.1 = k then (k, v) else p)
  else l ++ [(k, v)]

/-- The mutable state threaded through the unpicking driver: the kernel tree,
the global trace (the canonical owner of every Temporary object), and the
declaration table (as the list of declared names). -/
structure PState where
  header : List BNode
  gt : Trace
  decls : List String

/-- The index of a key in the global trace (global_trace.keys().index,
cse.py line 202). -/
def keyIdx (gt : Trace) (u : Urepr) : Nat := gt.findIdx (fun p => p.1 = u)

/-- Inserts a key into a list sorted by global-trace index. -/
def insByIdx (gt : Trace) (x : Urepr) : List Urepr → List Urepr
  | [] => [x]
  | y :: ys => if keyIdx gt x ≤ keyIdx gt y then x :: y :: ys else y :: insByIdx gt x ys

/-- Sorts keys by their global-trace index (cse.py lines 201 to 202). -/
def sortByIdx (gt : Trace) (l : List Urepr) : List Urepr :=
  l.foldl (fun acc x => insByIdx gt x acc) []

/-- CSEUnpicker._push_temporaries (cse.py lines 158 to 214).  Temporaries are
addressed by their trace keys; the global trace is the canonical store of the
shared Temporary objects (within one loop the local trace aliases it).
Phase one collects the substitution map and the readers to retrace, and
deletes the defining statements of pushed temporaries; phase two applies the
substitution to every modified statement in discovery order; phase three
recomposes the linear read costs of the modified temporaries. -/
def pushTemps (fuel : Nat) (ra : String → List Nat) (tempKeys : List Urepr)
    (traceKeys : List Urepr) (st : PState) : PState :=
  let p1 := tempKeys.foldl
    (fun (acc : List (Urepr × Expr) × List Urepr × PState) u =>
      match getT acc.2.2.gt u with
      | none => acc
      | some t =>
        if ¬ isPushable acc.2.2.gt ra t then acc
        else
          let toRep := acc.1 ++ [(t.symbol.urepr, t.expr.getD (.sym t.symbol))]
          let mod := t.readby.foldl
            (fun m rb => if m.contains rb.urepr then m else m ++ [rb.urepr]) acc.2.1
          let stt := acc.2.2
          let stt :=
            if nodeInBody ((findLoopBody fuel t.main_loop.blockId stt.header).getD []) t.node
               && t.readby.all (fun rb => traceKeys.contains rb.urepr) then
              { header := mapLoopBody fuel t.main_loop.blockId
                  (fun body => match t.node with
                    | .stmt b => eraseByNid b.nid body
                    | .symN _ => body) stt.header,
                gt := updateT stt.gt t.urepr (fun x => { x with pushed := true }),
                decls := stt.decls.erase t.symbol.symbol }
            else stt
          (toRep, mod, stt)) ([], [], st)
  let toRep := p1.1
  let modSorted := sortByIdx p1.2.2.gt p1.2.1
  let st2 := modSorted.foldl (fun stt m =>
      match getT stt.gt m with
      | some t =>
          match t.node with
          | .stmt b =>
              let nb := astReplaceNode toRep b
              { stt with
                gt := updateT stt.gt m (fun x => { x with node := .stmt nb }),
                header := replaceByNid fuel b.nid nb stt.header }
          | .symN _ => stt
      | none => stt) p1.2.2
  let replaced := toRep.map (·.1)
  modSorted.foldl (fun stt m =>
      let gtCur := stt.gt
      { stt with
        gt := updateT gtCur m (fun t =>
          { t with lrc := t.lrc.foldl (fun acc rc =>
              if replaced.contains rc.1.urepr then
                let acc := eraseLrc rc.1 acc
                let rl := ((getT gtCur rc.1.urepr).map (·.lrc)).getD []
                let items := if rl.isEmpty then [(rc.1, 0)] else rl
                items.foldl (fun a pc => setLrc a pc.1 (rc.2 + pc.2)) acc
              else acc) t.lrc }) }) st2

/-- CSEUnpicker._transform_temporaries (cse.py lines 216 to 241).  The
expression-root statements (the keys of self.exprs, compared by node
identity) are filtered out; each surviving Temporary is handed to an
ExpressionRewriter, first for replacediv, expansion and factorization (one
pass per temporary, in order), then for code motion (a second pass over the
same rewriters).  The rewriter modules live outside src/, so the effect of
each pass on the kernel tree is an oracle parameter; the returned list
records the temporaries actually handed over. -/
def transformT (exprIds : List Nat) (tempKeys : List Urepr)
    (oracleFact oracleLicm : List BNode → Urepr → List BNode) (st : PState) :
    PState × List Urepr :=
  let targets := tempKeys.filter (fun u =>
    match getT st.gt u with
    | some t =>
        match t.node with
        | .stmt b => ¬ exprIds.contains b.nid
        | .symN _ => true
    | none => false)
  ({ st with header := targets.foldl oracleLicm (targets.foldl oracleFact st.header) },
   targets)

/-- The trace keys whose Temporaries live at a given level (the level lists
of cse.py lines 428 to 430; levels never change after analysis, so reading
them from the canonical store is faithful). -/
def keysOfLevel (gt : Trace) (keys : List Urepr) (l : Int) : List Urepr :=
  keys.filter (fun u => (getT gt u).map (·.level) = some l)

/-- The sub-trace of the canonical store belonging to one analyzed loop.
After global_trace.update(trace), the Python per-loop trace and the global
trace share the same Temporary objects, so reading the entries of a loop from the
canonical store is exact whenever each urepr is traced by a single loop (in
particular for every kernel considered concretely below). -/
def subTrace (gt : Trace) (keys : List Urepr) : Trace :=
  keys.filterMap (fun u => (getT gt u).map (fun t => (u, t)))

/-- The per-loop body of CSEUnpicker.unpick (cse.py lines 414 to 430): group
the trace by level, take the do-nothing cost as the initial best, probe
cost_fact from every starting level keeping the first strict improvement,
then push and transform level by level across the winning range. -/
def processLoop (fuel : Nat) (ra : String → List Nat) (exprIds : List Nat)
    (oracleFact oracleLicm : List BNode → Urepr → List BNode) (st : PState)
    (entry : Loop × List Urepr) : PState :=
  let keys := entry.2
  let tr := subTrace st.gt keys
  let vals := tr.map (·.2)
  let lvls := sortInts (vals.map (·.level)).dedup
  let lv := groupByLevel vals
  let minL := lvls.head?.getD 0
  let maxL := lvls.getLast?.getD 0
  let current := costCse lv (minL, maxL)
  let gb := lvls.foldl (fun (best : Int × Int × Int) i =>
      let lb := costFact tr (i, maxL)
      if lb.2.2 < best.2.2 then lb else best) (minL, minL, (current : Int))
  (intRange (gb.1 + 1) (gb.2.1 + 1)).foldl (fun stt i =>
    let stt := pushTemps fuel ra (keysOfLevel stt.gt keys (i - 1)) keys stt
    (transformT exprIds (keysOfLevel stt.gt keys i) oracleFact oracleLicm stt).1) st

/-- Modelled from the spec: FindLoopNests (coffee/visitors.py, outside src/)
returns, for every innermost loop, the full path of loops leading to it, in
visit order; its behavior is pinned down by src/tests/test_visitors.py
(test_find_loop_nests_nested). -/
def leafPaths (fuel : Nat) (path : List (Loop × List BNode)) (ns : List BNode) :
    List (List (Loop × List BNode)) :=
  match fuel with
  | 0 => []
  | f + 1 =>
      (ns.filterMap (fun b =>
        match b with
        | .forL l body => some (l, body)
        | _ => none)).foldl (fun acc lb =>
          let sub := leafPaths f (path ++ [lb]) lb.2
          acc ++ (if sub.isEmpty then [path ++ [lb]] else sub)) []

/-- OrderedDict insertion for the nests map of cse.py lines 399 to 403: a
later nest overwrites the value but keeps the original key position. -/
def nestsInsert (acc : List (Loop × List BNode × List Loop)) (l : Loop)
    (v : List BNode × List Loop) : List (Loop × List BNode × List Loop) :=
  if acc.any (fun p => p.1 = l) then
    acc.map (fun p => if p.1 = l then (l, v) else p)
  else acc ++ [(l, v)]

/-- The linear-loop collection of CSEUnpicker.unpick (cse.py lines 398 to
403): every linear loop of every nest, mapped to its body and to the loop
path of the (last) nest containing it. -/
def buildNests (fuel : Nat) (header : List BNode) :
    List (Loop × List BNode × List Loop) :=
  (leafPaths fuel [] header).foldl (fun acc path =>
    path.foldl (fun acc2 lb =>
      if lb.1.is_linear then nestsInsert acc2 lb.1 (lb.2, path.map (·.1))
      else acc2) acc) []

/-- Modelled from the spec: loops_analysis (outside src/) maps a symbol to
the set of enclosing loop dimensions it varies over (spec section 6); a
symbol varies over the dimensions of the loops under which it is written. -/
def collectWrites (fuel : Nat) (ctx : List String) (ns : List BNode) :
    List (String × List String) :=
  match fuel with
  | 0 => []
  | f + 1 =>
      ns.foldl (fun acc b =>
        match b with
        | .writer _ lv _ => acc ++ [(lv.symbol, ctx)]
        | .forL l body => acc ++ collectWrites f (ctx ++ [l.dim]) body) []

/-- The loop-dependence map of a kernel (see collectWrites). -/
def ldaOf (fuel : Nat) (header : List BNode) : String → List String :=
  fun s => ((collectWrites fuel [] header).foldl
    (fun acc p => if p.1 = s then acc ++ p.2 else acc) []).dedup

/-- The cleanup of CSEUnpicker.unpick (cse.py lines 432 to 436): removes the
loop with the given block id from its parent if its body is empty. -/
def removeLoopIfEmpty (fuel : Nat) (bid : Nat) (ns : List BNode) : List BNode :=
  match fuel with
  | 0 => ns
  | f + 1 =>
      ns.foldr (fun b acc =>
        match b with
        | .forL l body =>
            let body2 := removeLoopIfEmpty f bid body
            if l.blockId = bid && body2.isEmpty then acc else .forL l body2 :: acc
        | w => w :: acc) []

/-- CSEUnpicker.unpick (cse.py lines 391 to 436): analyze every linear loop
in discovery order, merging the traces into the global trace; run the
cost-driven push and transform phases per analyzed loop; finally remove, in
reverse discovery order, the analyzed loops whose bodies became empty.  The
reachability analysis and the rewriter effect are supplied as parameters
(both live outside src/). -/
def unpick (fuel : Nat) (decls : List String) (linearDims : List String)
    (ra : String → List Nat) (exprIds : List Nat)
    (oracleFact oracleLicm : List BNode → Urepr → List BNode) (header : List BNode) :
    List BNode :=
  let lda := ldaOf fuel header
  let nests := buildNests fuel header
  let am := nests.foldl (fun (acc : Trace × List (Loop × List Urepr)) nb =>
      let r := analyzeLoop fuel decls linearDims lda nb.1 nb.2.2 acc.1 nb.2.1
      if r.1.isEmpty then (r.2, acc.2)
      else (updTrace r.2 r.1, acc.2 ++ [(nb.1, r.1.map (·.1))])) ([], [])
  let st := am.2.foldl (processLoop fuel ra exprIds oracleFact oracleLicm)
    { header := header, gt := am.1, decls := decls }
  nests.reverse.foldl (fun h nb => removeLoopIfEmpty fuel nb.1.blockId h) st.header

/-- A store of scalar variables for the differential evaluation of kernels. -/
abbrev Env := List (String × Int)

/-- Reads a variable (0 for never-written names). -/
def envGet (env : Env) (s : String) : Int :=
  ((env.find? (fun p => p.1 = s)).map (·.2)).getD 0

/-- Writes a variable. -/
def envSet (env : Env) (s : String) (v : Int) : Env :=
  if env.any (fun p => p.1 = s) then
    env.map (fun p => if p.1 = s then (s, v) else p)
  else env ++ [(s, v)]

/-- The numeric value of a digit character (code points 48 to 57). -/
def digChar (c : Char) : Option Nat :=
  let v := c.toNat
  if 48 ≤ v ∧ v ≤ 57 then some (v - 48) else none

/-- Parses a non-empty digit string (str.isdigit plus conversion). -/
def strToNat (s : String) : Option Nat :=
  match s.data with
  | [] => none
  | ds => ds.foldl (fun acc c =>
      match acc, digChar c with
      | some n, some d => some (n * 10 + d)
      | _, _ => none) (some 0)

/-- The value of a symbol: numeric literals are symbols with a digit-string
name (as in COFFEE), everything else is a variable read. -/
def symVal (env : Env) (s : Sym) : Int :=
  match strToNat s.symbol with
  | some n => (n : Int)
  | none => envGet env s.symbol

/-- Evaluates an expression over integer variables. -/
def evalExpr (env : Env) : Expr → Int
  | .sym s => symVal env s
  | .arrInit _ => 0
  | .prodE a b => evalExpr env a * evalExpr env b
  | .divE a b => evalExpr env a / evalExpr env b
  | .sumE a b => evalExpr env a + evalExpr env b
  | .subE a b => evalExpr env a - evalExpr env b

/-- Iterates a state transformer. -/
def applyN (f : Env → Env) : Nat → Env → Env
  | 0, env => env
  | k + 1, env => applyN f k (f env)

/-- Evaluates a statement list: assignments update the store, loops run
their bodies size times.  The fuel bounds the loop-nesting depth; it is
exact for every kernel nested less deeply. -/
def evalNodesD : Nat → List BNode → Env → Env
  | 0, _, env => env
  | d + 1, ns, env =>
      ns.foldl (fun e n =>
        match n with
        | .writer _ lv rv => envSet e lv.symbol (evalExpr e rv)
        | .forL l body => applyN (evalNodesD d body) l.size e) env

/-- A scalar symbol. -/
def sv (n : String) : Sym := ⟨n, []⟩

/-- A scalar symbol occurrence as an expression. -/
def se (n : String) : Expr := .sym (sv n)

/-- The failing kernel for the semantic-preservation claim: inside one linear
loop over i, two temporaries t1 and t2 read the scalar b, b is then
incremented, and the main expression x consumes t1 and t2.  Every operand
reading of cse.py sees t1 and t2 as profitable to inline, although b changes
value between their definition and their use. -/
def loopI : Loop := ⟨"i", 2, true, 100⟩

/-- Statement t1 = b * e1 of the failing kernel. -/
def stmt1 : BNode := .writer 1 (sv "t1") (.prodE (se "b") (se "e1"))

/-- Statement t2 = b * e2 of the failing kernel. -/
def stmt2 : BNode := .writer 2 (sv "t2") (.prodE (se "b") (se "e2"))

/-- Statement b = b + 1 of the failing kernel. -/
def stmt3 : BNode := .writer 3 (sv "b") (.sumE (se "b") (se "1"))

/-- Statement x = t1 * f1 + t2 * f2, the main expression of the failing
kernel. -/
def stmt4 : BNode :=
  .writer 4 (sv "x") (.sumE (.prodE (se "t1") (se "f1")) (.prodE (se "t2") (se "f2")))

/-- The failing kernel. -/
def kernel0 : List BNode := [.forL loopI [stmt1, stmt2, stmt3, stmt4]]

/-- The declared names of the failing kernel. -/
def decls0 : List String := ["b", "e1", "e2", "f1", "f2", "t1", "t2", "x"]

/-- The reachability map of the failing kernel: every declaration is visible
in the body block of the loop. -/
def ra0 : String → List Nat := fun _ => [100]

/-- The initial store of the failing kernel. -/
def env0 : Env :=
  [("b", 5), ("e1", 1), ("e2", 0), ("f1", 1), ("f2", 0), ("t1", 0), ("t2", 0), ("x", 0)]

/-- The sum of the traced projection costs of the linear reads, the first
summand of the outer-loop cost of one Temporary in the hypothetical
estimate, written as a direct sum (the claim-side reading of cse.py line
343). -/
def projTraceCost (nt : Trace) (lrc : List (LinOp × Nat)) : Nat :=
  (lrc.map (fun rc =>
    match getT nt rc.1.urepr with
    | some tt => tt.project * rc.2
    | none => 0)).sum

/-- The operand list of one Temporary after tracing its linear reads through
the already-decided factorizations, written as a direct flattening (the
claim-side reading of cse.py lines 338 to 345). -/
def tracedOperands (nt : Trace) (lrc : List (LinOp × Nat)) : List LinOp :=
  (lrc.map (fun rc =>
    match getT nt rc.1.urepr with
    | some tt =>
        if tt.linear_reads.isEmpty then [LinOp.u rc.1.urepr] else tt.linear_reads
    | none => [LinOp.u rc.1.urepr])).flatten

/-- The rewriter object of rewriter.py, reduced to the data the mode
dispatch can touch before reaching its engines: the target statement. -/
structure Rewriter where
  stmt : BNode

/-- The mode names ExpressionRewriter.licm dispatches on (rewriter.py lines
168 to 208). -/
def licmModes : List String :=
  ["normal", "reductions", "incremental", "only_const", "only_outlinear",
   "only_linear", "aggressive"]

/-- The mode names ExpressionRewriter.expand dispatches on (rewriter.py
lines 261 to 289). -/
def expandModes : List String :=
  ["standard", "dimensions", "all", "linear", "outlinear"]

/-- The mode names ExpressionRewriter.factorize dispatches on (rewriter.py
lines 341 to 379). -/
def factorizeModes : List String :=
  ["standard", "dimensions", "adhoc", "heuristic", "all", "linear",
   "outlinear", "constants"]

/-- The warning of rewriter.py line 210. -/
def licmWarnMsg : String := "Skipping unknown licm strategy."

/-- The warning of rewriter.py line 291. -/
def expandWarnMsg : String := "Skipping unknown expansion strategy."

/-- The warning of rewriter.py line 381. -/
def factorizeWarnMsg : String := "Skipping unknown factorization strategy."

/-- ExpressionRewriter.licm (rewriter.py lines 76 to 213) as seen by its
mode dispatch.  Known modes run the hoisting machinery (Hoister and friends
live outside src/, so their effect is the abstract engine, which yields the
post-call object state and the returned value); an unknown mode logs a
warning and returns self with the object untouched.  The result triple is
(object state after the call, returned value, warnings emitted). -/
def licmRun (engine : String → Rewriter → Rewriter × Option Rewriter)
    (mode : String) (rw : Rewriter) : Rewriter × Option Rewriter × List String :=
  if licmModes.contains mode then
    let r := engine mode rw
    (r.1, r.2, [])
  else
    (rw, some rw, [licmWarnMsg])

/-- ExpressionRewriter.expand (rewriter.py lines 215 to 295) as seen by its
mode dispatch: an unknown mode logs a warning and executes a bare return,
so the returned value is None while the object is untouched. -/
def expandRun (engine : String → Rewriter → Rewriter × Option Rewriter)
    (mode : String) (rw : Rewriter) : Rewriter × Option Rewriter × List String :=
  if expandModes.contains mode then
    let r := engine mode rw
    (r.1, r.2, [])
  else
    (rw, none, [expandWarnMsg])

/-- ExpressionRewriter.factorize (rewriter.py lines 297 to 386) as seen by
its mode dispatch: an unknown mode logs a warning and executes a bare
return, so the returned value is None while the object is untouched. -/
def factorizeRun (engine : String → Rewriter → Rewriter × Option Rewriter)
    (mode : String) (rw : Rewriter) : Rewriter × Option Rewriter × List String :=
  if factorizeModes.contains mode then
    let r := engine mode rw
    (r.1, r.2, [])
  else
    (rw, none, [factorizeWarnMsg])

/-- A heap of list cells, modelling the Python list objects held by
Temporary instances; reconstruct allocates fresh cells, so mutations of a
copy cannot reach the original (claim C9). -/
structure Store where
  readsH : List (List Sym)
  rdbyH : List (List Sym)
  lrcH : List (List (LinOp × Nat))

/-- A Temporary as a Python object: scalar fields inline, list fields as
references into the store. -/
structure TempObj where
  level : Int
  pushed : Bool
  readsR : Nat
  rdbyR : Nat
  lrcR : Nat

/-- The reads contents of an object. -/
def readsC (σ : Store) (o : TempObj) : List Sym := σ.readsH.getD o.readsR []

/-- The readby contents of an object. -/
def rdbyC (σ : Store) (o : TempObj) : List Sym := σ.rdbyH.getD o.rdbyR []

/-- The linear_reads_costs contents of an object. -/
def lrcC (σ : Store) (o : TempObj) : List (LinOp × Nat) := σ.lrcH.getD o.lrcR []

/-- Temporary.reconstruct (cse.py lines 119 to 124) in the store model: a
new object whose reads, readby and linear_reads_costs live in freshly
allocated cells holding copies of the current contents (list(...) and
OrderedDict(...)); level is carried over and pushed reset by the
constructor. -/
def reconstructO (σ : Store) (t : TempObj) : TempObj × Store :=
  (⟨t.level, false, σ.readsH.length, σ.rdbyH.length, σ.lrcH.length⟩,
   ⟨σ.readsH ++ [readsC σ t], σ.rdbyH ++ [rdbyC σ t], σ.lrcH ++ [lrcC σ t]⟩)

/-- The global-trace branch of CSEUnpicker._analyze_loop (cse.py lines 279
to 284) in the store model: append the current write target to the readers
of the shared global Temporary, then snapshot it and reset the level of the
snapshot. -/
def stepGtBranch (σ : Store) (g : TempObj) (lv : Sym) : TempObj × Store :=
  let σ1 : Store := { σ with rdbyH := σ.rdbyH.set g.rdbyR (rdbyC σ g ++ [lv]) }
  let r := reconstructO σ1 g
  ({ r.1 with level := -1 }, r.2)

/-- The mutations a later analysis step could apply to a Temporary object:
overwriting or extending each of the copied fields. -/
inductive MutOp where
  | setLevel (v : Int)
  | setReads (v : List Sym)
  | appendReads (s : Sym)
  | setRdby (v : List Sym)
  | appendRdby (s : Sym)
  | setLrcF (v : List (LinOp × Nat))
  | appendLrc (p : LinOp × Nat)

/-- Applies one mutation to an object. -/
def applyMut (om : TempObj × Store) : MutOp → TempObj × Store
  | .setLevel v => ({ om.1 with level := v }, om.2)
  | .setReads v => (om.1, { om.2 with readsH := om.2.readsH.set om.1.readsR v })
  | .appendReads s =>
      (om.1, { om.2 with readsH := om.2.readsH.set om.1.readsR (readsC om.2 om.1 ++ [s]) })
  | .setRdby v => (om.1, { om.2 with rdbyH := om.2.rdbyH.set om.1.rdbyR v })
  | .appendRdby s =>
      (om.1, { om.2 with rdbyH := om.2.rdbyH.set om.1.rdbyR (rdbyC om.2 om.1 ++ [s]) })
  | .setLrcF v => (om.1, { om.2 with lrcH := om.2.lrcH.set om.1.lrcR v })
  | .appendLrc p =>
      (om.1, { om.2 with lrcH := om.2.lrcH.set om.1.lrcR (lrcC om.2 om.1 ++ [p]) })

/-- Applies a sequence of mutations to an object. -/
def applyMuts (om : TempObj × Store) (ms : List MutOp) : TempObj × Store :=
  ms.foldl applyMut om

/-- A 0/1 assignment of the integer program built by
ExpressionRewriter.sharing_graph_rewrite (rewriter.py lines 581 to 605):
one binary variable per node, one per oriented edge key. -/
structure Assign01 where
  x : Nat → Bool
  y : Nat × Nat → Bool

/-- The numeric value of a binary variable. -/
def bval (b : Bool) : Nat := if b then 1 else 0

/-- The limits of rewriter.py lines 587 to 590: for every edge, both
endpoints gain one unit. -/
def limits (edges : List (Nat × Nat)) (i : Nat) : Nat :=
  edges.countP (fun e => e.1 = i) + edges.countP (fun e => e.2 = i)

/-- Whether (i, j) is a key of the y dictionary (rewriter.py lines 584 to
586): the edge list together with its swap. -/
def isYKey (edges : List (Nat × Nat)) (i j : Nat) : Bool :=
  edges.contains (i, j) || edges.contains (j, i)

/-- The left side of the node constraint of rewriter.py line 597: the sum of
y[(i, j)] over the nodes j for which (i, j) is a key. -/
def ySum (n : Nat) (edges : List (Nat × Nat)) (a : Assign01) (i : Nat) : Nat :=
  ((List.range n).map (fun j => if isYKey edges i j then bval (a.y (i, j)) else 0)).sum

/-- Feasibility for the integer program of rewriter.py lines 593 to 600: the
node constraints and the edge constraints. -/
def feasibleIP (n : Nat) (edges : List (Nat × Nat)) (a : Assign01) : Prop :=
  (∀ i ∈ List.range n, ySum n edges a i ≤ limits edges i * bval (a.x i)) ∧
  (∀ e ∈ edges, bval (a.y (e.1, e.2)) + bval (a.y (e.2, e.1)) = 1)

/-- The objective of rewriter.py line 603: the number of selected pivots. -/
def objectiveIP (n : Nat) (a : Assign01) : Nat :=
  ((List.range n).map (fun i => bval (a.x i))).sum

/-- Edge endpoints name actual nodes. -/
def validEdges (n : Nat) (edges : List (Nat × Nat)) : Prop :=
  ∀ e ∈ edges, e.1 < n ∧ e.2 < n

/-- A predicate covers the edges when every edge has a selected endpoint. -/
def coversIP (edges : List (Nat × Nat)) (c : Nat → Bool) : Prop :=
  ∀ e ∈ edges, c e.1 = true ∨ c e.2 = true

/-- The size of a cover, over the node range of the program. -/
def coverSize (n : Nat) (c : Nat → Bool) : Nat :=
  ((List.range n).map (fun i => bval (c i))).sum

/-- Orients every edge towards a covering endpoint: the canonical feasible
assignment of a vertex cover. -/
def mkY (c : Nat → Bool) : Nat × Nat → Bool :=
  fun p => if c p.1 && c p.2 then decide (p.1 ≤ p.2) else c p.1

/-- The sharing graph of the path A - B - C - D from the spec, with nodes
numbered in order. -/
def pathEdges : List (Nat × Nat) := [(0, 1), (1, 2), (2, 3)]

/-- A trivial rewriting engine for concrete instantiations. -/
def engine0 : String → Rewriter → Rewriter × Option Rewriter := fun _ r => (r, some r)

/-- A concrete rewriter object. -/
def rw0 : Rewriter := ⟨stmt1⟩

/-- A Temporary with one linear read of nonzero cost, already present in the
hypothetical trace: the ingredient of the cost-model counterexample. -/
def tmpA : Temporary :=
  ⟨.symN (sv "a"), loopI, [loopI], [], [(.s (sv "bb"), 1)], 0, false, [], 1⟩

/-- A Temporary whose single linear read is tmpA, with cost 1. -/
def tmpT : Temporary :=
  ⟨.symN (sv "t"), loopI, [loopI], [], [(.s (sv "a"), 1)], 1, false, [], 1⟩

/-- The hypothetical trace holding tmpA. -/
def ntC2 : Trace := [((sv "a").urepr, tmpA)]

/-- A loop-dependence map with no linear symbols. -/
def ldaNone : String → List String := fun _ => []

/-- A loop-dependence map making c vary over i. -/
def ldaC : String → List String := fun s => if s = "c" then ["i"] else []

/-- A loop body with a single write whose rvalue has no linear reads. -/
def bodyC6 : List BNode := [.writer 9 (sv "y") (se "c")]

/-- A bare-symbol Temporary for a, with no readers yet. -/
def tmpA7 : Temporary := mkSymTemporary (sv "a") loopI [loopI]

/-- A local trace holding the open Temporary for a. -/
def trC7 : Trace := [((sv "a").urepr, tmpA7)]

/-- A non-writer statement (a nested loop) that reads a but writes only z. -/
def nodeC7 : BNode := .forL ⟨"j", 1, false, 101⟩ [.writer 9 (sv "z") (se "a")]

/-- A non-writer statement (a nested loop) that writes the traced symbol a. -/
def nodeC7b : BNode := .forL ⟨"j", 1, false, 102⟩ [.writer 10 (sv "a") (se "c")]

/-- A concrete store with one Temporary object worth of cells. -/
def store0 : Store := ⟨[[sv "r"]], [[sv "p"]], [[(.s (sv "q"), 2)]]⟩

/-- A concrete Temporary object pointing at the cells of store0. -/
def obj0 : TempObj := ⟨3, false, 0, 0, 0⟩

/-- The optimal pivot selection for the path graph: the two middle nodes. -/
def xStar : Nat → Bool := fun i => decide (i = 1 ∨ i = 2)

/-- The optimal assignment for the path-graph integer program. -/
def aStar : Assign01 := ⟨xStar, mkY xStar⟩

/-- A Temporary defined by an ordinary (non-expression-root) statement. -/
def tmpY : Temporary :=
  ⟨.stmt (.writer 9 (sv "y") (se "c")), loopI, [loopI], [], [], 0, false, [], 0⟩

/-- A global trace holding tmpY. -/
def gtC10 : Trace := [((sv "y").urepr, tmpY)]

/-- An oracle that leaves the kernel unchanged. -/
def oracle0 : List BNode → Urepr → List BNode := fun h _ => h

/-- A Temporary with one reader, no reads, and an ordinary rvalue: pushable. -/
def tmpP : Temporary :=
  ⟨.stmt (.writer 20 (sv "p") (se "c")), loopI, [loopI], [], [], 0, false, [sv "x"], 0⟩

/-! Helper lemmas about the ordered trace map. -/

theorem getT_nil (v : Urepr) : getT [] v = none := rfl

theorem getT_cons (p : Urepr × Temporary) (ps : Trace) (v : Urepr) :
    getT (p :: ps) v = if p.1 = v then some p.2 else getT ps v := by
  by_cases h : p.1 = v <;> simp [getT, List.find?_cons, h]

theorem setT_cons (p : Urepr × Temporary) (ps : Trace) (u : Urepr) (t : Temporary) :
    setT (p :: ps) u t =
      if p.1 = u then (u, t) :: ps.map (fun q => if q.1 = u then (u, t) else q)
      else p :: setT ps u t := by
  by_cases hp : p.1 = u
  · simp [setT, hp]
  · by_cases hps : ps.any (fun q => decide (q.1 = u)) = true
    · simp [setT, hp, hps]
    · simp [setT, hp, hps]

theorem getT_map_overwrite_ne (ps : Trace) (u v : Urepr) (t : Temporary) (h : v ≠ u) :
    getT (ps.map (fun q => if q.1 = u then (u, t) else q)) v = getT ps v := by
  induction ps with
  | nil => rfl
  | cons q qs ih =>
      by_cases hq : q.1 = u
      · have h1 : ¬ u = v := fun hh => h hh.symm
        have h2 : ¬ q.1 = v := by rw [hq]; exact h1
        simp [List.map_cons, hq, getT_cons, h1, h2, ih]
      · by_cases hqv : q.1 = v
        · simp only [List.map_cons, if_neg hq, getT_cons, if_pos hqv]
        · simp [List.map_cons, hq, getT_cons, hqv, ih]

theorem getT_setT_self (tr : Trace) (u : Urepr) (t : Temporary) :
    getT (setT tr u t) u = some t := by
  induction tr with
  | nil => simp [setT, getT_cons]
  | cons p ps ih =>
      rw [setT_cons]
      by_cases hp : p.1 = u
      · simp [hp, getT_cons]
      · simp [hp, getT_cons, ih]

theorem getT_setT_ne (tr : Trace) (u v : Urepr) (t : Temporary) (h : v ≠ u) :
    getT (setT tr u t) v = getT tr v := by
  induction tr with
  | nil =>
      have h1 : ¬ u = v := fun hh => h hh.symm
      simp [setT, getT_cons, h1]
  | cons p ps ih =>
      rw [setT_cons]
      by_cases hp : p.1 = u
      · have h1 : ¬ u = v := fun hh => h hh.symm
        have h2 : ¬ p.1 = v := by rw [hp]; exact h1
        simp only [if_pos hp, getT_cons, h1, if_false, h2]
        exact getT_map_overwrite_ne ps u v t h
      · by_cases hpv : p.1 = v
        · rw [if_neg hp, getT_cons, if_pos hpv, getT_cons, if_pos hpv]
        · rw [if_neg hp, getT_cons, if_neg hpv, getT_cons, if_neg hpv, ih]

theorem getT_setT_isSome (tr : Trace) (u v : Urepr) (t : Temporary)
    (h : (getT tr v).isSome = true) : (getT (setT tr u t) v).isSome = true := by
  by_cases huv : v = u
  · subst huv; rw [getT_setT_self]; rfl
  · rw [getT_setT_ne tr u v t huv]; exact h

/-! Summation helpers for the additivity of the materialization cost. -/

theorem sumRangeSplit (f : Nat → Nat) (m n : Nat) :
    ((List.range (m + n)).map f).sum =
      ((List.range m).map f).sum + ((List.range n).map (fun k => f (m + k))).sum := by
  induction n with
  | zero => simp
  | succ n ih =>
      rw [show m + (n + 1) = (m + n) + 1 by omega, List.range_succ, List.map_append,
        List.sum_append, ih, List.range_succ, List.map_append, List.sum_append]
      simp [Nat.add_assoc]

theorem intRangeSumSplit (g : Int → Nat) (a b c : Int) (h1 : a ≤ b) (h2 : b < c) :
    ((intRange a (c + 1)).map g).sum =
      ((intRange a (b + 1)).map g).sum + ((intRange (b + 1) (c + 1)).map g).sum := by
  unfold intRange
  rw [List.map_map, List.map_map, List.map_map]
  have hm : (c + 1 - a).toNat = (b + 1 - a).toNat + (c + 1 - (b + 1)).toNat := by omega
  rw [hm, sumRangeSplit]
  congr 1
  congr 1
  apply List.map_congr_left
  intro k _
  simp only [Function.comp_apply]
  congr 1
  push_cast
  omega

/-- C8: for every level grouping produced by _group_by_level and all
integers a ≤ b < c, the materialization cost over the inclusive level range
[a, c] equals the cost over [a, b] plus the cost over [b + 1, c]. -/
theorem c8_costCse_additive (ts : List Temporary) (a b c : Int)
    (h1 : a ≤ b) (h2 : b < c) :
    costCse (groupByLevel ts) (a, c) =
      costCse (groupByLevel ts) (a, b) + costCse (groupByLevel ts) (b + 1, c) := by
  unfold costCse
  exact intRangeSumSplit _ a b c h1 h2

/-- Witness for C8: the additivity applied to a concrete grouping and the
bounds a = 0, b = 0, c = 1. -/
theorem c8_costCse_additive_witness :
    (0 : Int) ≤ 0 ∧ (0 : Int) < 1 ∧
      costCse (groupByLevel [tmpA, tmpT]) (0, 1) =
        costCse (groupByLevel [tmpA, tmpT]) (0, 0) +
          costCse (groupByLevel [tmpA, tmpT]) (1, 1) :=
  ⟨le_refl 0, by decide,
    c8_costCse_additive [tmpA, tmpT] 0 0 1 (le_refl 0) (by decide)⟩

/-- C1: unpick is not semantics preserving.  On kernel0 (one linear loop in
which t1 and t2 read the scalar b, b is then incremented, and the main
expression x consumes t1 and t2), with the initial store env0, the original
kernel computes x = 6 but the kernel returned by unpick computes x = 7: the
push phase inlines the definitions of t1 and t2 past the write to b.  The
rewriter oracle is arbitrary because the transform phase hands it no
temporary on this kernel. -/
theorem c1_unpick_changes_kernel_output :
    ∀ oracleFact oracleLicm : List BNode → Urepr → List BNode,
      envGet (evalNodesD 3 kernel0 env0) "x" = 6 ∧
      envGet (evalNodesD 3
        (unpick 5 decls0 ["i"] ra0 [4] oracleFact oracleLicm kernel0) env0) "x" = 7 :=
  fun _ _ => ⟨rfl, rfl⟩

/-- The operand-tracing fold of the cost model computes exactly the flattened
traced-operand list and the summed projection costs. -/
theorem costFactReads_spec (nt : Trace) (lrc : List (LinOp × Nat)) :
    costFactReads nt lrc = (tracedOperands nt lrc, projTraceCost nt lrc) := by
  suffices h : ∀ acc : List LinOp × Nat,
      lrc.foldl (fun acc rc =>
        match getT nt rc.1.urepr with
        | some tt =>
            (acc.1 ++ (if tt.linear_reads.isEmpty then [LinOp.u rc.1.urepr]
                       else tt.linear_reads),
             acc.2 + tt.project * rc.2)
        | none => (acc.1 ++ [LinOp.u rc.1.urepr], acc.2)) acc =
      (acc.1 ++ tracedOperands nt lrc, acc.2 + projTraceCost nt lrc) by
    simpa [costFactReads] using h ([], 0)
  induction lrc with
  | nil => intro acc; simp [tracedOperands, projTraceCost]
  | cons rc rest ih =>
      intro acc
      simp only [List.foldl_cons]
      cases hg : getT nt rc.1.urepr with
      | none =>
          simp only [hg]
          rw [ih]
          simp [tracedOperands, projTraceCost, hg, List.append_assoc, Nat.add_assoc]
      | some tt =>
          simp only [hg]
          rw [ih]
          simp [tracedOperands, projTraceCost, hg, List.append_assoc, Nat.add_assoc]

/-- C2 counterexample: a Temporary whose single linear read is traced
through the hypothetical trace with projection 1 and cost 1 contributes
outer-loop cost 1 times its post-hoist iteration count, not (number of
operands minus number of distinct operands) times it, which is 0 here. -/
theorem c2_cost_fact_outer_counterexample :
    (costFactTempStep (ntC2, 0, 0) tmpT).2.1 ≠
      ((tracedOperands ntC2 tmpT.lrc).length -
        (factSyms (tracedOperands ntC2 tmpT.lrc)).length) * tmpT.niters_after_licm := by
  decide

/-- C2 amended: the per-Temporary step of the hypothetical estimate adds to
the outer-loop total the sum of the traced projection costs plus the
duplicate count (operands minus distinct operands), times the post-hoist
iteration count; and adds to the inner-loop total 2 n - 1 times the full
iteration count, for n distinct traced operands. -/
theorem c2_cost_fact_amended (nt : Trace) (tot : Nat) (li : Int) (t : Temporary) :
    (costFactTempStep (nt, tot, li) t).2.1 =
      tot + (projTraceCost nt t.lrc +
        ((tracedOperands nt t.lrc).length -
          (factSyms (tracedOperands nt t.lrc)).length)) * t.niters_after_licm ∧
    (costFactTempStep (nt, tot, li) t).2.2 =
      li + (2 * ((factSyms (tracedOperands nt t.lrc)).length : Int) - 1) *
        (t.niters : Int) := by
  have hs := costFactReads_spec nt t.lrc
  unfold costFactTempStep
  rw [hs]
  exact ⟨rfl, rfl⟩

/-- C5 counterexample: calling expand (and likewise factorize) with the
unknown mode name bogus executes a bare return, so the caller receives None
and not the rewriter object; chaining breaks even though the statement is
left unchanged. -/
theorem c5_unknown_mode_counterexample :
    (expandRun engine0 "bogus" rw0).2.1 = none ∧
      ¬ (expandRun engine0 "bogus" rw0).2.1 = some rw0 ∧
      (factorizeRun engine0 "bogus" rw0).2.1 = none := by
  refine ⟨rfl, ?_, rfl⟩
  intro h
  rw [show (expandRun engine0 "bogus" rw0).2.1 = none from rfl] at h
  exact Option.noConfusion h

/-- C5 amended: an unknown mode name is non-fatal for licm, expand and
factorize alike: the warning is logged and the target statement left
untouched; but only licm returns the rewriter object itself, while expand
and factorize return None, so chaining stops after them. -/
theorem c5_unknown_mode_amended
    (engineL engineE engineF : String → Rewriter → Rewriter × Option Rewriter)
    (mode : String) (rw : Rewriter)
    (hL : licmModes.contains mode = false)
    (hE : expandModes.contains mode = false)
    (hF : factorizeModes.contains mode = false) :
    licmRun engineL mode rw = (rw, some rw, [licmWarnMsg]) ∧
    expandRun engineE mode rw = (rw, none, [expandWarnMsg]) ∧
    factorizeRun engineF mode rw = (rw, none, [factorizeWarnMsg]) := by
  unfold licmRun expandRun factorizeRun
  rw [hL, hE, hF]
  simp

/-- Witness for C5 amended at the unknown mode bogus. -/
theorem c5_unknown_mode_amended_witness :
    licmModes.contains "bogus" = false ∧
      licmRun engine0 "bogus" rw0 = (rw0, some rw0, [licmWarnMsg]) ∧
      expandRun engine0 "bogus" rw0 = (rw0, none, [expandWarnMsg]) ∧
      factorizeRun engine0 "bogus" rw0 = (rw0, none, [factorizeWarnMsg]) := by
  have h := c5_unknown_mode_amended engine0 engine0 engine0 "bogus" rw0
    (by decide) (by decide) (by decide)
  exact ⟨by decide, h.1, h.2.1, h.2.2⟩

/-- C4: a Temporary is judged pushable exactly when it is SSA, has at least
one reader, its rvalue is not a constant array initializer, and every symbol
it reads is either already marked pushed in the global trace or visible, per
the reachability map, in every loop body in which its readers live. -/
theorem c4_is_pushable_iff (gt : Trace) (ra : String → List Nat) (t : Temporary) :
    isPushable gt ra t = true ↔
      (t.is_ssa = true ∧ t.readby ≠ [] ∧ t.is_static_init = false ∧
        ∀ s ∈ t.reads,
          (∃ g, getT gt s.urepr = some g ∧ g.pushed = true) ∨
          ∀ l ∈ pushedIn gt t, l ∈ ra s.symbol) := by
  unfold isPushable
  by_cases h1 : t.is_ssa = true
  · by_cases h2 : t.readby.isEmpty = true
    · have h2e : t.readby = [] := List.isEmpty_iff.mp h2
      simp [h1, h2, h2e]
    · have h2e : t.readby ≠ [] := fun hh => h2 (by simp [hh])
      by_cases h3 : t.is_static_init = true
      · simp [h1, h2, h3]
      · have h3f : t.is_static_init = false := by
          cases hx : t.is_static_init
          · rfl
          · exact absurd hx h3
        simp only [h1, h2, h3f, h2e, not_true, Bool.not_true, not_false_iff,
          if_false, if_true, ne_eq, not_false_eq_true, true_and, Bool.false_eq_true]
        rw [List.all_eq_true]
        refine ⟨fun hall s hs => ?_, fun hall s hs => ?_⟩
        · have hps := hall s hs
          cases hg : getT gt s.urepr with
          | none =>
              right
              simp only [hg, if_false, Bool.false_eq_true] at hps
              intro l hl
              have := List.all_eq_true.mp hps l hl
              simpa using this
          | some g =>
              by_cases hp : g.pushed = true
              · exact Or.inl ⟨g, rfl, hp⟩
              · right
                have hpf : g.pushed = false := by
                  cases hx : g.pushed
                  · rfl
                  · exact absurd hx hp
                simp only [hg, hpf, if_false, Bool.false_eq_true] at hps
                intro l hl
                have := List.all_eq_true.mp hps l hl
                simpa using this
        · rcases hall s hs with ⟨g, hg, hp⟩ | hvis
          · simp [hg, hp]
          · cases hg : getT gt s.urepr with
            | none =>
                simp only [hg, if_false, Bool.false_eq_true]
                rw [List.all_eq_true]
                intro l hl
                simpa using hvis l hl
            | some g =>
                cases hgp : g.pushed
                · simp only [hg, hgp, if_false, Bool.false_eq_true]
                  rw [List.all_eq_true]
                  intro l hl
                  simpa using hvis l hl
                · simp [hg, hgp]
  · rw [if_pos h1]
    simp only [Bool.false_eq_true, false_iff]
    rintro ⟨hssa, -, -, -⟩
    exact h1 hssa

/-- Witness for C4: a Temporary that is SSA, has one reader, no array
initializer and no reads is pushable by the four conditions. -/
theorem c4_is_pushable_iff_witness :
    isPushable [] (fun _ => []) tmpP = true := by
  apply (c4_is_pushable_iff [] (fun _ => []) tmpP).mpr
  refine ⟨by decide, by decide, by decide, ?_⟩
  intro s hs
  exact absurd hs (List.not_mem_nil s)

/-- C10: the transform phase filters out every Temporary whose defining node
is an expression-root statement: the kernel tree is rewritten by folding the
rewriter effect over exactly the surviving temporaries, and none of them has
an expression-root node, so the expression roots are never handed to an
ExpressionRewriter by this phase. -/
theorem c10_transform_skips_expression_roots (exprIds : List Nat)
    (tempKeys : List Urepr) (gt : Trace) (decls : List String)
    (oracleFact oracleLicm : List BNode → Urepr → List BNode) (header : List BNode) :
    (transformT exprIds tempKeys oracleFact oracleLicm ⟨header, gt, decls⟩).1.header =
      (transformT exprIds tempKeys oracleFact oracleLicm ⟨header, gt, decls⟩).2.foldl
        oracleLicm
        ((transformT exprIds tempKeys oracleFact oracleLicm
          ⟨header, gt, decls⟩).2.foldl oracleFact header) ∧
    ∀ u ∈ (transformT exprIds tempKeys oracleFact oracleLicm ⟨header, gt, decls⟩).2,
      ∀ t, getT gt u = some t → ∀ b, t.node = .stmt b →
        exprIds.contains b.nid = false := by
  constructor
  · rfl
  · intro u hu t ht b hb
    have hp := List.of_mem_filter hu
    simp only [ht] at hp
    rw [hb] at hp
    simpa using hp

/-- Witness for C10: a concrete non-root Temporary survives the filter and
its node is indeed not an expression root. -/
theorem c10_transform_skips_expression_roots_witness :
    ([4] : List Nat).contains 9 = false := by
  have h := c10_transform_skips_expression_roots [4] [(sv "y").urepr] gtC10 []
    oracle0 oracle0 []
  exact h.2 (sv "y").urepr (by decide) tmpY rfl (.writer 9 (sv "y") (se "c")) rfl

/-- The local trace produced by one read-tracing step is an update of the
previous local trace at the urepr of the processed read. -/
theorem traceReadStep_fst (loop : Loop) (nest : List Loop) (lvalue : Sym)
    (tg : Trace × Trace) (sc : Sym × Nat) :
    ∃ t2, (traceReadStep loop nest lvalue tg sc).1 = setT tg.1 sc.1.urepr t2 := by
  unfold traceReadStep
  dsimp only
  cases hg : getT tg.2 sc.1.urepr with
  | some temporary => exact ⟨_, rfl⟩
  | none => exact ⟨_, rfl⟩

/-- Keys present in the local trace stay present through the read-tracing
phase. -/
theorem traceReads_mono (loop : Loop) (nest : List Loop) (lvalue : Sym)
    (lrcs : List (Sym × Nat)) (st : Trace × Trace) (v : Urepr)
    (h : (getT st.1 v).isSome = true) :
    (getT (traceReadsPhase loop nest lvalue st lrcs).1 v).isSome = true := by
  induction lrcs generalizing st with
  | nil => exact h
  | cons rc rest ih =>
      show (getT (traceReadsPhase loop nest lvalue
        (traceReadStep loop nest lvalue st rc) rest).1 v).isSome = true
      apply ih
      obtain ⟨t2, ht2⟩ := traceReadStep_fst loop nest lvalue st rc
      rw [ht2]
      exact getT_setT_isSome _ _ _ _ h

/-- After the read-tracing phase, every processed linear read has an entry
in the local trace (so the dictionary accesses of cse.py line 289 always
succeed). -/
theorem traceReads_presence (loop : Loop) (nest : List Loop) (lvalue : Sym)
    (lrcs : List (Sym × Nat)) (st : Trace × Trace) :
    ∀ sc ∈ lrcs,
      (getT (traceReadsPhase loop nest lvalue st lrcs).1 sc.1.urepr).isSome = true := by
  induction lrcs generalizing st with
  | nil => intro sc h; cases h
  | cons rc rest ih =>
      intro sc hmem
      show (getT (traceReadsPhase loop nest lvalue
        (traceReadStep loop nest lvalue st rc) rest).1 sc.1.urepr).isSome = true
      rcases List.mem_cons.mp hmem with heq | hrest
      · subst heq
        apply traceReads_mono
        obtain ⟨t2, ht2⟩ := traceReadStep_fst loop nest lvalue st sc
        rw [ht2, getT_setT_self]
        rfl
      · exact ih _ sc hrest

/-- C6 counterexample: tracing a write statement with no linear reads gives
the new Temporary level -1, not 0: max([] or [-2]) + 1 = -1 in cse.py lines
289 to 290. -/
theorem c6_level_counterexample :
    ((getT (analyzeLoop 3 ["c", "y"] ["i"] ldaNone loopI [loopI] [] bodyC6).1
        (sv "y").urepr).map (fun t => t.level)) = some (-1) ∧
    ((getT (analyzeLoop 3 ["c", "y"] ["i"] ldaNone loopI [loopI] [] bodyC6).1
        (sv "y").urepr).map (fun t => t.lrc.isEmpty)) = some true ∧
    (-1 : Int) ≠ 0 :=
  ⟨rfl, rfl, by decide⟩

/-- C6 amended: the Temporary created for a write target has level 1 plus
the maximum level, in the local trace after read tracing, of its linear
reads when it has at least one, and level -1 (not 0) when it has none; the
read-tracing phase guarantees that every linear read is present in that
trace. -/
theorem c6_level_amended (fuel : Nat) (decls linearDims : List String)
    (lda : String → List String) (loop : Loop) (nest : List Loop)
    (tr gt : Trace) (nid : Nat) (lvalue : Sym) (rvalue : Expr)
    (lrcs : List (Sym × Nat)) (tr1 : Trace)
    (hl : lrcs = (analyzeExpr decls linearDims lda rvalue).2)
    (ht : tr1 = (traceReadsPhase loop nest lvalue (tr, gt) lrcs).1) :
    ∃ t, getT (analyzeStep fuel decls linearDims lda loop nest (tr, gt)
        (.writer nid lvalue rvalue)).1 lvalue.urepr = some t ∧
      (∀ sc ∈ lrcs, (getT tr1 sc.1.urepr).isSome = true) ∧
      (lrcs = [] → t.level = -1) ∧
      (lrcs ≠ [] →
        t.level = pyMaxOr (lrcs.filterMap
          (fun sc => (getT tr1 sc.1.urepr).map (fun x => x.level))) (-2) + 1) := by
  subst hl ht
  refine ⟨mkWriteTemporary loop nest (.writer nid lvalue rvalue) rvalue
    (analyzeExpr decls linearDims lda rvalue).1
    (analyzeExpr decls linearDims lda rvalue).2
    (traceReadsPhase loop nest lvalue (tr, gt)
      (analyzeExpr decls linearDims lda rvalue).2).1, ?_, ?_, ?_, ?_⟩
  · show getT (setT _ lvalue.urepr _) lvalue.urepr = _
    rw [getT_setT_self]
    rfl
  · exact traceReads_presence loop nest lvalue _ (tr, gt)
  · intro he
    simp only [mkWriteTemporary, he]
    rfl
  · intro _
    simp only [mkWriteTemporary]
    congr 1
    congr 1
    rw [List.filterMap_map]
    rfl

/-- Witness for C6 amended: a write whose single linear read is fresh gets
level 0 (the fresh entry has level -1). -/
theorem c6_level_amended_witness :
    ∃ t, getT (analyzeStep 3 ["c", "y"] ["i"] ldaC loopI [loopI] ([], [])
        (.writer 9 (sv "y") (se "c"))).1 (sv "y").urepr = some t ∧ t.level = 0 := by
  obtain ⟨t, h1, _, _, h4⟩ := c6_level_amended 3 ["c", "y"] ["i"] ldaC loopI [loopI]
    [] [] 9 (sv "y") (se "c") _ _ rfl rfl
  refine ⟨t, h1, ?_⟩
  rw [h4 (by decide)]
  decide

/-- The readby-append fold of the non-writer branch, characterized entrywise
for a duplicate-free written-symbol list. -/
theorem appendRdbyFold (ws : List Urepr) (tr : Trace) (hnd : ws.Nodup) (u : Urepr) :
    getT (ws.foldl (fun tr w =>
        match getT tr w with
        | some t => setT tr w { t with readby := t.readby ++ [t.symbol] }
        | none => tr) tr) u =
      if u ∈ ws then
        (getT tr u).map (fun t => { t with readby := t.readby ++ [t.symbol] })
      else getT tr u := by
  induction ws generalizing tr with
  | nil => simp
  | cons w ws ih =>
      simp only [List.foldl_cons]
      have hndw : ws.Nodup := (List.nodup_cons.mp hnd).2
      have hwnotin : w ∉ ws := (List.nodup_cons.mp hnd).1
      rw [ih _ hndw]
      by_cases hu : u = w
      · subst hu
        rw [if_neg hwnotin, if_pos (List.mem_cons_self u ws)]
        cases hg : getT tr u with
        | none => simp [hg]
        | some t => simp [hg, getT_setT_self]
      · have hstep : getT (match getT tr w with
            | some t => setT tr w { t with readby := t.readby ++ [t.symbol] }
            | none => tr) u = getT tr u := by
          cases hg : getT tr w with
          | none => rfl
          | some t => exact getT_setT_ne tr w u _ hu
        rw [hstep]
        by_cases hin : u ∈ ws
        · rw [if_pos hin, if_pos (List.mem_cons_of_mem w hin)]
        · rw [if_neg hin, if_neg (fun hc =>
            (List.mem_cons.mp hc).elim (fun h => hu h) hin)]

/-- C7 counterexample: a non-writer statement that merely reads the open
Temporary a (it writes only z) leaves the readby list of a unchanged; the
claim predicts that the own symbol of a is appended. -/
theorem c7_nonwriter_counterexample :
    (sv "a") ∈ readsOf 3 nodeC7 ∧
    getT (analyzeStep 3 ["a", "z"] ["i"] ldaNone loopI [loopI] (trC7, []) nodeC7).1
      (sv "a").urepr = some tmpA7 ∧
    tmpA7.readby = [] ∧
    ([] : List Sym) ≠ [tmpA7.symbol] :=
  ⟨by decide, rfl, rfl, by decide⟩

/-- C7 amended: for a non-writer statement, every still-open Temporary whose
symbol the statement writes (the in_written list, assumed duplicate free)
gets its own symbol appended to readby, becoming non-SSA; entries outside
the written list, and the global trace, are untouched.  Symbols the
statement merely reads play no role. -/
theorem c7_nonwriter_amended (fuel : Nat) (decls lin : List String)
    (lda : String → List String) (loop : Loop) (nest : List Loop)
    (tr gt : Trace) (l : Loop) (body : List BNode)
    (hnd : (inWritten fuel (.forL l body)).Nodup) :
    (analyzeStep fuel decls lin lda loop nest (tr, gt) (.forL l body)).2 = gt ∧
    (∀ u, u ∉ inWritten fuel (.forL l body) →
      getT (analyzeStep fuel decls lin lda loop nest (tr, gt) (.forL l body)).1 u =
        getT tr u) ∧
    (∀ u ∈ inWritten fuel (.forL l body), ∀ t, getT tr u = some t →
      getT (analyzeStep fuel decls lin lda loop nest (tr, gt) (.forL l body)).1 u =
        some { t with readby := t.readby ++ [t.symbol] } ∧
      Temporary.is_ssa { t with readby := t.readby ++ [t.symbol] } = false) := by
  refine ⟨rfl, ?_, ?_⟩
  · intro u hu
    show getT ((inWritten fuel (.forL l body)).foldl _ tr) u = getT tr u
    rw [appendRdbyFold _ _ hnd u, if_neg hu]
  · intro u hu t ht
    constructor
    · show getT ((inWritten fuel (.forL l body)).foldl _ tr) u = _
      rw [appendRdbyFold _ _ hnd u, if_pos hu, ht]
      rfl
    · unfold Temporary.is_ssa
      have hsym : Temporary.symbol { t with readby := t.readby ++ [t.symbol] } =
          t.symbol := rfl
      rw [hsym]
      simp

/-- Witness for C7 amended: a nested loop writing the traced symbol a makes
the Temporary of a non-SSA by appending its own symbol. -/
theorem c7_nonwriter_amended_witness :
    getT (analyzeStep 3 ["a", "c"] ["i"] ldaNone loopI [loopI] (trC7, []) nodeC7b).1
        (sv "a").urepr =
      some { tmpA7 with readby := tmpA7.readby ++ [tmpA7.symbol] } ∧
    Temporary.is_ssa { tmpA7 with readby := tmpA7.readby ++ [tmpA7.symbol] } = false := by
  have h := c7_nonwriter_amended 3 ["a", "c"] ["i"] ldaNone loopI [loopI]
    trC7 [] ⟨"j", 1, false, 102⟩ [.writer 10 (sv "a") (se "c")] (by decide)
  exact h.2.2 (sv "a").urepr (by decide) tmpA7 rfl

/-! Cell lemmas for the store model. -/

theorem getD_set_ne {α : Type} (l : List α) (i j : Nat) (v d : α) (h : i ≠ j) :
    (l.set i v).getD j d = l.getD j d := by
  induction l generalizing i j with
  | nil => rfl
  | cons a as ih =>
      cases i with
      | zero =>
          cases j with
          | zero => exact absurd rfl h
          | succ jj => rfl
      | succ ii =>
          cases j with
          | zero => rfl
          | succ jj => exact ih ii jj (fun hh => h (by rw [hh]))

theorem getD_set_self {α : Type} (l : List α) (i : Nat) (v d : α) (h : i < l.length) :
    (l.set i v).getD i d = v := by
  induction l generalizing i with
  | nil => exact absurd h (Nat.not_lt_zero i)
  | cons a as ih =>
      cases i with
      | zero => rfl
      | succ ii => exact ih ii (Nat.lt_of_succ_lt_succ h)

theorem getD_append_self {α : Type} (l : List α) (v d : α) :
    (l ++ [v]).getD l.length d = v := by
  induction l with
  | nil => rfl
  | cons a as ih => exact ih

theorem getD_append_lt {α : Type} (l : List α) (v d : α) (i : Nat) (h : i < l.length) :
    (l ++ [v]).getD i d = l.getD i d := by
  induction l generalizing i with
  | nil => exact absurd h (Nat.not_lt_zero i)
  | cons a as ih =>
      cases i with
      | zero => rfl
      | succ ii => exact ih ii (Nat.lt_of_succ_lt_succ h)

/-- One mutation of an object keeps its cell references and every heap
length. -/
theorem applyMut_refs (om : TempObj × Store) (m : MutOp) :
    (applyMut om m).1.readsR = om.1.readsR ∧ (applyMut om m).1.rdbyR = om.1.rdbyR ∧
    (applyMut om m).1.lrcR = om.1.lrcR ∧
    (applyMut om m).2.readsH.length = om.2.readsH.length ∧
    (applyMut om m).2.rdbyH.length = om.2.rdbyH.length ∧
    (applyMut om m).2.lrcH.length = om.2.lrcH.length := by
  cases m <;> simp [applyMut]

/-- Mutating an object whose cells differ from those of another object
leaves the cells of the other object untouched. -/
theorem applyMuts_frame (ms : List MutOp) (om : TempObj × Store) (g : TempObj)
    (h1 : om.1.readsR ≠ g.readsR) (h2 : om.1.rdbyR ≠ g.rdbyR)
    (h3 : om.1.lrcR ≠ g.lrcR) :
    readsC (applyMuts om ms).2 g = readsC om.2 g ∧
    rdbyC (applyMuts om ms).2 g = rdbyC om.2 g ∧
    lrcC (applyMuts om ms).2 g = lrcC om.2 g := by
  induction ms generalizing om with
  | nil => exact ⟨rfl, rfl, rfl⟩
  | cons m ms ih =>
      have hr := applyMut_refs om m
      have hstep : readsC (applyMut om m).2 g = readsC om.2 g ∧
          rdbyC (applyMut om m).2 g = rdbyC om.2 g ∧
          lrcC (applyMut om m).2 g = lrcC om.2 g := by
        cases m with
        | setLevel v => exact ⟨rfl, rfl, rfl⟩
        | setReads v =>
            exact ⟨getD_set_ne _ _ _ _ _ h1, rfl, rfl⟩
        | appendReads s =>
            exact ⟨getD_set_ne _ _ _ _ _ h1, rfl, rfl⟩
        | setRdby v =>
            exact ⟨rfl, getD_set_ne _ _ _ _ _ h2, rfl⟩
        | appendRdby s =>
            exact ⟨rfl, getD_set_ne _ _ _ _ _ h2, rfl⟩
        | setLrcF v =>
            exact ⟨rfl, rfl, getD_set_ne _ _ _ _ _ h3⟩
        | appendLrc p =>
            exact ⟨rfl, rfl, getD_set_ne _ _ _ _ _ h3⟩
      have hrest := ih (applyMut om m)
        (by rw [hr.1]; exact h1) (by rw [hr.2.1]; exact h2) (by rw [hr.2.2.1]; exact h3)
      exact ⟨hrest.1.trans hstep.1, hrest.2.1.trans hstep.2.1,
        hrest.2.2.trans hstep.2.2⟩

/-- C9: the global-trace branch appends the write target to the readers of
the shared global Temporary and installs an independent reconstructed copy
with level reset to -1 whose reads, readby and linear_reads_costs contents
equal those of the global instance; any sequence of mutations applied to
the copy leaves every one of those fields of the global instance unchanged
(the copy lives in freshly allocated cells); and, at the trace level, the
branch stores the level-reset reconstructed copy in the loop-local trace
while the appended original stays in the global trace. -/
theorem c9_reconstruct_snapshot (σ : Store) (g : TempObj) (lv : Sym)
    (hr : g.readsR < σ.readsH.length) (hb : g.rdbyR < σ.rdbyH.length)
    (hl : g.lrcR < σ.lrcH.length) :
    rdbyC (stepGtBranch σ g lv).2 g = rdbyC σ g ++ [lv] ∧
    (stepGtBranch σ g lv).1.level = -1 ∧
    readsC (stepGtBranch σ g lv).2 (stepGtBranch σ g lv).1 = readsC σ g ∧
    rdbyC (stepGtBranch σ g lv).2 (stepGtBranch σ g lv).1 = rdbyC σ g ++ [lv] ∧
    lrcC (stepGtBranch σ g lv).2 (stepGtBranch σ g lv).1 = lrcC σ g ∧
    (∀ ms : List MutOp,
      readsC (applyMuts (stepGtBranch σ g lv) ms).2 g = readsC σ g ∧
      rdbyC (applyMuts (stepGtBranch σ g lv) ms).2 g = rdbyC σ g ++ [lv] ∧
      lrcC (applyMuts (stepGtBranch σ g lv) ms).2 g = lrcC σ g) ∧
    (∀ (loop : Loop) (nest : List Loop) (lvalue : Sym) (tr gt : Trace)
      (sc : Sym × Nat) (t0 : Temporary), getT gt sc.1.urepr = some t0 →
      getT (traceReadStep loop nest lvalue (tr, gt) sc).1 sc.1.urepr =
        some { Temporary.reconstruct { t0 with readby := t0.readby ++ [lvalue] } with
          level := -1 } ∧
      getT (traceReadStep loop nest lvalue (tr, gt) sc).2 sc.1.urepr =
        some { t0 with readby := t0.readby ++ [lvalue] }) := by
  have hb1 : g.rdbyR < (σ.rdbyH.set g.rdbyR (rdbyC σ g ++ [lv])).length := by
    rw [List.length_set]; exact hb
  have hgb : rdbyC (stepGtBranch σ g lv).2 g = rdbyC σ g ++ [lv] := by
    show ((σ.rdbyH.set g.rdbyR (rdbyC σ g ++ [lv]) ++ [_]).getD g.rdbyR []) = _
    rw [getD_append_lt _ _ _ _ hb1]
    exact getD_set_self _ _ _ _ hb
  have hcreads : readsC (stepGtBranch σ g lv).2 (stepGtBranch σ g lv).1 = readsC σ g := by
    show (σ.readsH ++ [readsC _ g]).getD σ.readsH.length [] = _
    rw [getD_append_self]
    rfl
  have hcrdby : rdbyC (stepGtBranch σ g lv).2 (stepGtBranch σ g lv).1 =
      rdbyC σ g ++ [lv] := by
    show ((σ.rdbyH.set g.rdbyR (rdbyC σ g ++ [lv])) ++
        [(σ.rdbyH.set g.rdbyR (rdbyC σ g ++ [lv])).getD g.rdbyR []]).getD
        (σ.rdbyH.set g.rdbyR (rdbyC σ g ++ [lv])).length [] = _
    rw [getD_append_self]
    exact getD_set_self _ _ _ _ hb
  have hclrc : lrcC (stepGtBranch σ g lv).2 (stepGtBranch σ g lv).1 = lrcC σ g := by
    show (σ.lrcH ++ [lrcC _ g]).getD σ.lrcH.length [] = _
    rw [getD_append_self]
    rfl
  refine ⟨hgb, rfl, hcreads, hcrdby, hclrc, ?_, ?_⟩
  · intro ms
    have hfr := applyMuts_frame ms (stepGtBranch σ g lv) g
      (Nat.ne_of_lt hr).symm
      (by show (σ.rdbyH.set g.rdbyR (rdbyC σ g ++ [lv])).length ≠ g.rdbyR
          rw [List.length_set]
          exact (Nat.ne_of_lt hb).symm)
      (Nat.ne_of_lt hl).symm
    have hr2 : readsC (stepGtBranch σ g lv).2 g = readsC σ g := by
      show (σ.readsH ++ [readsC _ g]).getD g.readsR [] = _
      rw [getD_append_lt _ _ _ _ hr]
      rfl
    have hl2 : lrcC (stepGtBranch σ g lv).2 g = lrcC σ g := by
      show (σ.lrcH ++ [lrcC _ g]).getD g.lrcR [] = _
      rw [getD_append_lt _ _ _ _ hl]
      rfl
    exact ⟨hfr.1.trans hr2, hfr.2.1.trans hgb, hfr.2.2.trans hl2⟩
  · intro loop nest lvalue tr gt sc t0 h0
    unfold traceReadStep
    dsimp only
    rw [h0]
    exact ⟨getT_setT_self _ _ _, getT_setT_self _ _ _⟩

/-- Witness for C9: on a concrete store, appending to the readers of the
copy leaves the readers of the shared instance at their post-append value. -/
theorem c9_reconstruct_snapshot_witness :
    rdbyC (applyMuts (stepGtBranch store0 obj0 (sv "w"))
        [MutOp.appendRdby (sv "m"), MutOp.setLevel 5]).2 obj0 = [sv "p", sv "w"] := by
  have h := c9_reconstruct_snapshot store0 obj0 (sv "w")
    (by decide) (by decide) (by decide)
  exact ((h.2.2.2.2.2.1 [MutOp.appendRdby (sv "m"), MutOp.setLevel 5]).2.1).trans rfl

/-! Combinatorial lemmas for the sharing-graph integer program. -/

theorem feasible_no_selfloop {n : Nat} {edges : List (Nat × Nat)} {a : Assign01}
    (hf : feasibleIP n edges a) : ∀ i, (i, i) ∉ edges := by
  intro i hmem
  have h := hf.2 (i, i) hmem
  cases hb : a.y (i, i) <;> simp [bval, hb] at h

theorem y_implies_x {n : Nat} {edges : List (Nat × Nat)} {a : Assign01}
    (hf : feasibleIP n edges a) (i j : Nat)
    (hi : i ∈ List.range n) (hj : j ∈ List.range n)
    (hkey : isYKey edges i j = true) (hy : a.y (i, j) = true) :
    a.x i = true := by
  have hnode := hf.1 i hi
  have hterm : (1 : Nat) ≤ ySum n edges a i := by
    have hmem : (if isYKey edges i j then bval (a.y (i, j)) else 0) ∈
        (List.range n).map (fun j => if isYKey edges i j then bval (a.y (i, j)) else 0) :=
      List.mem_map_of_mem _ hj
    have hle := List.single_le_sum (fun x _ => Nat.zero_le x) _ hmem
    rw [if_pos hkey, hy] at hle
    exact hle
  cases hx : a.x i
  · rw [hx] at hnode
    simp only [bval, if_false, Bool.false_eq_true, Nat.mul_zero] at hnode
    omega
  · rfl

theorem feasible_cover {n : Nat} {edges : List (Nat × Nat)} {a : Assign01}
    (hv : validEdges n edges) (hf : feasibleIP n edges a) :
    coversIP edges a.x := by
  intro e he
  have hedge := hf.2 e he
  have hcont : edges.contains (e.1, e.2) = true := by
    have : e ∈ edges := he
    simpa using this
  have hkey1 : isYKey edges e.1 e.2 = true := by
    unfold isYKey
    rw [hcont]
    rfl
  have hkey2 : isYKey edges e.2 e.1 = true := by
    unfold isYKey
    rw [hcont]
    simp
  have h1 : e.1 ∈ List.range n := List.mem_range.mpr (hv e he).1
  have h2 : e.2 ∈ List.range n := List.mem_range.mpr (hv e he).2
  cases hy1 : a.y (e.1, e.2) with
  | true => exact Or.inl (y_implies_x hf e.1 e.2 h1 h2 hkey1 hy1)
  | false =>
      cases hy2 : a.y (e.2, e.1) with
      | true => exact Or.inr (y_implies_x hf e.2 e.1 h2 h1 hkey2 hy2)
      | false => rw [hy1, hy2] at hedge; simp [bval] at hedge

theorem sum_map_add {α : Type} (l : List α) (f g : α → Nat) :
    (l.map (fun x => f x + g x)).sum = (l.map f).sum + (l.map g).sum := by
  induction l with
  | nil => rfl
  | cons a as ih => simp only [List.map_cons, List.sum_cons, ih]; omega

theorem sum_indicator_nodup (l : List Nat) (hl : l.Nodup) (b : Nat) :
    (l.map (fun j => if j = b then 1 else 0)).sum = if b ∈ l then 1 else 0 := by
  induction l with
  | nil => rfl
  | cons a as ih =>
      have hna := (List.nodup_cons.mp hl).1
      have has := (List.nodup_cons.mp hl).2
      simp only [List.map_cons, List.sum_cons, ih has]
      by_cases hab : a = b
      · subst hab
        rw [if_pos rfl, if_neg hna, if_pos (List.mem_cons_self a as)]
      · rw [if_neg hab]
        by_cases hbs : b ∈ as
        · rw [if_pos hbs, if_pos (List.mem_cons_of_mem a hbs)]
        · rw [if_neg hbs, if_neg (fun hc =>
            (List.mem_cons.mp hc).elim (fun h => hab h.symm) hbs)]

theorem sum_count_fst (edges : List (Nat × Nat)) (n i : Nat) :
    ((List.range n).map (fun j => edges.countP (fun e => e = (i, j)))).sum ≤
      edges.countP (fun e => e.1 = i) := by
  induction edges with
  | nil => simp
  | cons e es ih =>
      have hsplit :
          ((List.range n).map (fun j => (e :: es).countP (fun x => x = (i, j)))).sum =
            ((List.range n).map (fun j => es.countP (fun x => x = (i, j)))).sum +
              ((List.range n).map (fun j => if e = (i, j) then 1 else 0)).sum := by
        rw [← sum_map_add]
        congr 1
        apply List.map_congr_left
        intro j _
        rw [List.countP_cons]
        by_cases hc : e = (i, j) <;> simp [hc]
      have hsingle :
          ((List.range n).map (fun j => if e = (i, j) then 1 else 0)).sum ≤
            if e.1 = i then 1 else 0 := by
        by_cases hfst : e.1 = i
        · have hrw : ((List.range n).map (fun j => if e = (i, j) then 1 else 0)) =
              ((List.range n).map (fun j => if j = e.2 then 1 else 0)) := by
            apply List.map_congr_left
            intro j _
            by_cases hj : j = e.2
            · subst hj
              have h1 : e = (i, e.2) := Prod.ext_iff.mpr ⟨hfst, rfl⟩
              rw [if_pos h1, if_pos (rfl : e.2 = e.2)]
            · rw [if_neg (fun hc => hj (congrArg Prod.snd hc).symm), if_neg hj]
          rw [hrw, sum_indicator_nodup _ (List.nodup_range n) e.2, if_pos hfst]
          split <;> omega
        · have hz : ((List.range n).map (fun j => if e = (i, j) then 1 else 0)).sum = 0 := by
            apply List.sum_eq_zero
            intro x hx
            obtain ⟨j, -, hj⟩ := List.mem_map.mp hx
            rw [← hj]
            rw [if_neg (fun hc => hfst (congrArg Prod.fst hc))]
          rw [hz]
          exact Nat.zero_le _
      rw [hsplit, List.countP_cons]
      simp only [decide_eq_true_eq]
      exact Nat.add_le_add ih hsingle

theorem sum_count_snd (edges : List (Nat × Nat)) (n i : Nat) :
    ((List.range n).map (fun j => edges.countP (fun e => e = (j, i)))).sum ≤
      edges.countP (fun e => e.2 = i) := by
  induction edges with
  | nil => simp
  | cons e es ih =>
      have hsplit :
          ((List.range n).map (fun j => (e :: es).countP (fun x => x = (j, i)))).sum =
            ((List.range n).map (fun j => es.countP (fun x => x = (j, i)))).sum +
              ((List.range n).map (fun j => if e = (j, i) then 1 else 0)).sum := by
        rw [← sum_map_add]
        congr 1
        apply List.map_congr_left
        intro j _
        rw [List.countP_cons]
        by_cases hc : e = (j, i) <;> simp [hc]
      have hsingle :
          ((List.range n).map (fun j => if e = (j, i) then 1 else 0)).sum ≤
            if e.2 = i then 1 else 0 := by
        by_cases hsnd : e.2 = i
        · have hrw : ((List.range n).map (fun j => if e = (j, i) then 1 else 0)) =
              ((List.range n).map (fun j => if j = e.1 then 1 else 0)) := by
            apply List.map_congr_left
            intro j _
            by_cases hj : j = e.1
            · subst hj
              have h1 : e = (e.1, i) := Prod.ext_iff.mpr ⟨rfl, hsnd⟩
              rw [if_pos h1, if_pos (rfl : e.1 = e.1)]
            · rw [if_neg (fun hc => hj (congrArg Prod.fst hc).symm), if_neg hj]
          rw [hrw, sum_indicator_nodup _ (List.nodup_range n) e.1, if_pos hsnd]
          split <;> omega
        · have hz : ((List.range n).map (fun j => if e = (j, i) then 1 else 0)).sum = 0 := by
            apply List.sum_eq_zero
            intro x hx
            obtain ⟨j, -, hj⟩ := List.mem_map.mp hx
            rw [← hj]
            rw [if_neg (fun hc => hsnd (congrArg Prod.snd hc))]
          rw [hz]
          exact Nat.zero_le _
      rw [hsplit, List.countP_cons]
      simp only [decide_eq_true_eq]
      exact Nat.add_le_add ih hsingle

/-- The number of distinct y keys at a node is at most its limit: every key
consumes at least one edge endpoint naming the node. -/
theorem yKeys_le_limits (edges : List (Nat × Nat)) (n i : Nat) :
    ((List.range n).map (fun j => if isYKey edges i j then 1 else 0)).sum ≤
      limits edges i := by
  have h1 : ((List.range n).map (fun j => if isYKey edges i j then 1 else 0)).sum ≤
      ((List.range n).map (fun j =>
        edges.countP (fun e => e = (i, j)) + edges.countP (fun e => e = (j, i)))).sum := by
    apply List.sum_le_sum
    intro j _
    by_cases hk : isYKey edges i j = true
    · rw [if_pos hk]
      rcases Bool.or_eq_true_iff.mp hk with hc | hc
      · have hm : (i, j) ∈ edges := by simpa using hc
        have : 0 < edges.countP (fun e => e = (i, j)) :=
          List.countP_pos_iff.mpr ⟨(i, j), hm, by simp⟩
        omega
      · have hm : (j, i) ∈ edges := by simpa using hc
        have : 0 < edges.countP (fun e => e = (j, i)) :=
          List.countP_pos_iff.mpr ⟨(j, i), hm, by simp⟩
        omega
    · rw [if_neg hk]
      exact Nat.zero_le _
  have h2 := sum_map_add (List.range n)
    (fun j => edges.countP (fun e => e = (i, j)))
    (fun j => edges.countP (fun e => e = (j, i)))
  rw [h2] at h1
  calc ((List.range n).map (fun j => if isYKey edges i j then 1 else 0)).sum
      ≤ _ := h1
    _ ≤ edges.countP (fun e => e.1 = i) + edges.countP (fun e => e.2 = i) :=
        Nat.add_le_add (sum_count_fst edges n i) (sum_count_snd edges n i)
    _ = limits edges i := rfl

/-- Every vertex cover of the sharing graph yields a feasible assignment of
the integer program: orient each edge towards a covering endpoint. -/
theorem cover_feasible (n : Nat) (edges : List (Nat × Nat)) (c : Nat → Bool)
    (hns : ∀ i, (i, i) ∉ edges) (hc : coversIP edges c) :
    feasibleIP n edges ⟨c, mkY c⟩ := by
  constructor
  · intro i _
    cases hci : c i with
    | false =>
        have hz : ySum n edges ⟨c, mkY c⟩ i = 0 := by
          apply List.sum_eq_zero
          intro x hx
          obtain ⟨j, -, hj⟩ := List.mem_map.mp hx
          rw [← hj]
          by_cases hk : isYKey edges i j = true
          · rw [if_pos hk]
            simp [mkY, bval, hci]
          · rw [if_neg hk]
        rw [hz]
        exact Nat.zero_le _
    | true =>
        have h1 : ySum n edges ⟨c, mkY c⟩ i ≤
            ((List.range n).map (fun j => if isYKey edges i j then 1 else 0)).sum := by
          apply List.sum_le_sum
          intro j _
          by_cases hk : isYKey edges i j = true
          · rw [if_pos hk, if_pos hk]
            cases hmk : mkY c (i, j) <;> simp [bval, hmk]
          · rw [if_neg hk, if_neg hk]
        have h2 := yKeys_le_limits edges n i
        show ySum n edges ⟨c, mkY c⟩ i ≤ limits edges i * bval (c i)
        rw [hci]
        have hb1 : bval true = 1 := rfl
        rw [hb1, Nat.mul_one]
        exact le_trans h1 h2
  · intro e he
    have hne : e.1 ≠ e.2 := by
      intro hh
      apply hns e.1
      have : e = (e.1, e.1) := Prod.ext_iff.mpr ⟨rfl, hh.symm⟩
      rw [← this]
      exact he
    have hcov := hc e he
    cases hc1 : c e.1 with
    | true =>
        cases hc2 : c e.2 with
        | true =>
            rcases Nat.lt_or_ge e.1 e.2 with hlt | hge
            · simp [mkY, hc1, hc2, bval, Nat.le_of_lt hlt, Nat.not_le.mpr hlt]
            · have hgt : e.2 < e.1 := Nat.lt_of_le_of_ne hge (fun hh => hne hh.symm)
              simp [mkY, hc1, hc2, bval, Nat.le_of_lt hgt, Nat.not_le.mpr hgt]
        | false => simp [mkY, hc1, hc2, bval]
    | false =>
        cases hc2 : c e.2 with
        | true => simp [mkY, hc1, hc2, bval]
        | false =>
            rw [hc1, hc2] at hcov
            rcases hcov with hh | hh <;> exact absurd hh (by simp)

/-- C3: if the external solver returns a feasible and optimal assignment for
the 0/1 program of sharing_graph_rewrite, then the selected pivot set covers
every edge of the sharing graph, has minimum cardinality among all covers,
and for the path graph A - B - C - D it has size at most 2. -/
theorem c3_sharing_graph_ilp (n : Nat) (edges : List (Nat × Nat)) (a : Assign01)
    (hv : validEdges n edges) (hf : feasibleIP n edges a)
    (hopt : ∀ b : Assign01, feasibleIP n edges b → objectiveIP n a ≤ objectiveIP n b) :
    coversIP edges a.x ∧
    (∀ c : Nat → Bool, coversIP edges c → objectiveIP n a ≤ coverSize n c) ∧
    (n = 4 → edges = pathEdges → objectiveIP n a ≤ 2) := by
  have hmin : ∀ c : Nat → Bool, coversIP edges c → objectiveIP n a ≤ coverSize n c := by
    intro c hcv
    have hfeas := cover_feasible n edges c (feasible_no_selfloop hf) hcv
    exact hopt ⟨c, mkY c⟩ hfeas
  refine ⟨feasible_cover hv hf, hmin, ?_⟩
  intro hn he
  subst hn
  subst he
  have hcv : coversIP pathEdges xStar := by
    intro e he
    fin_cases he <;> simp [xStar]
  have := hmin xStar hcv
  have hsize : coverSize 4 xStar = 2 := by decide
  rw [hsize] at this
  exact this

/-- Witness for C3: the concrete assignment selecting B and C with edges
oriented by mkY is feasible and optimal for the path program, and the
theorem yields the cover property and the size bound. -/
theorem c3_sharing_graph_ilp_witness :
    coversIP pathEdges aStar.x ∧ objectiveIP 4 aStar ≤ 2 := by
  have hv : validEdges 4 pathEdges := by
    intro e he
    fin_cases he <;> simp [pathEdges]
  have hf : feasibleIP 4 pathEdges aStar := by
    constructor
    · intro i hi
      fin_cases hi <;> decide
    · intro e he
      fin_cases he <;> decide
  have hopt : ∀ b : Assign01, feasibleIP 4 pathEdges b →
      objectiveIP 4 aStar ≤ objectiveIP 4 b := by
    intro b hb
    have hcv := feasible_cover hv hb
    have h01 := hcv (0, 1) (by simp [pathEdges])
    have h12 := hcv (1, 2) (by simp [pathEdges])
    have h23 := hcv (2, 3) (by simp [pathEdges])
    have hobj : objectiveIP 4 b =
        bval (b.x 0) + (bval (b.x 1) + (bval (b.x 2) + (bval (b.x 3) + 0))) := rfl
    have hstar : objectiveIP 4 aStar = 2 := by decide
    rw [hobj, hstar]
    cases hb0 : b.x 0 <;> cases hb1 : b.x 1 <;> cases hb2 : b.x 2 <;> cases hb3 : b.x 3 <;>
      simp [hb0, hb1, hb2, hb3, bval] at h01 h12 h23 ⊢
  have h := c3_sharing_graph_ilp 4 pathEdges aStar hv hf hopt
  exact ⟨h.1, h.2.2 rfl rfl⟩

end Coffee
